import Mathlib

/-!
# HEX console font (`src/gamedata/fonts/hexfont.cpp`)

A shallow embedding of `FHexFont::ParseDefinition`, `FHexFontChar::CreatePalettedPixels`
and `FHexFont::LoadTranslations`, followed by the properties proved about them.

Modelling conventions.

* A C string is a `List Char` (the terminating NUL is the end of the list).
* `TArray<uint8_t>` is a `List Nat`; its element count is the length of the list and
  every cell written through the model is reduced modulo 256.
* `int` values are `Int`; the one narrowing conversion of the source,
  `(int)strtoull(..)`, is the explicit wrap-around `toInt32`.
* `TArray::operator[]` checks no bound. The parser's one write at an index at or
  past the element count (the last pass of the store loop on a bitstring of odd
  length) addresses the spare capacity behind the elements and leaves the elements
  as they are. In the rasterizer an access outside the buffer or the source is
  `none`. `FScanner::ScriptError` is `ParseError.scriptError`.
* The scanner is the list of the tokens it would deliver.
* String lengths and element counts stay below `2 ^ 32`, the range of the
  `unsigned` variables that hold them, so those variables are plain `Nat`.
-/

namespace HexFont

/-! ## C library -/

def ULLONG_MAX : Nat := 2 ^ 64 - 1

def INT_MAX : Int := 2147483647

def INT_MIN : Int := -2147483648

/-- The white-space characters of the C locale, as `isspace` classifies them. -/
def isspace (c : Char) : Bool :=
  c.toNat = 32 || (9 ≤ c.toNat && c.toNat ≤ 13)

/-- Value of a character as a base-16 digit; `none` when it is not a hex digit. -/
def hexDigit? (c : Char) : Option Nat :=
  if 48 ≤ c.toNat ∧ c.toNat ≤ 57 then some (c.toNat - 48)
  else if 97 ≤ c.toNat ∧ c.toNat ≤ 102 then some (c.toNat - 87)
  else if 65 ≤ c.toNat ∧ c.toNat ≤ 70 then some (c.toNat - 55)
  else none

/-- The digit loop of `strtoull`: consume base-16 digits and stop at the first
character that is not one. -/
def accumHex : List Char → Nat → Nat
  | [], acc => acc
  | c :: rest, acc =>
    match hexDigit? c with
    | some d => accumHex rest (16 * acc + d)
    | none => acc

/-- Optional sign of the subject sequence of `strtoull`. -/
def stripSign : List Char → Bool × List Char
  | '-' :: t => (true, t)
  | '+' :: t => (false, t)
  | s => (false, s)

/-- Optional `0x` / `0X` of the subject sequence for base 16; it belongs to the
subject sequence only when a hex digit follows it. -/
def strip0x : List Char → List Char
  | '0' :: x :: h :: t =>
    if (x = 'x' ∨ x = 'X') ∧ (hexDigit? h).isSome then h :: t else '0' :: x :: h :: t
  | s => s

/-- The call `strtoull(s, nullptr, 16)`: leading white space, optional sign, optional
`0x`, then hex digits up to the first other character; the result saturates at
`ULLONG_MAX` and a leading minus negates it in 64-bit unsigned arithmetic. -/
def strtoull16 (s : List Char) : Nat :=
  let signed := stripSign (s.dropWhile isspace)
  let v := accumHex (strip0x signed.2) 0
  if ULLONG_MAX < v then ULLONG_MAX
  else if signed.1 then (2 ^ 64 - v) % 2 ^ 64
  else v

/-- The conversion `(int)` of a 64-bit unsigned value: the low 32 bits, read as
two's complement. -/
def toInt32 (v : Nat) : Int :=
  if v % 2 ^ 32 < 2 ^ 31 then ((v % 2 ^ 32 : Nat) : Int)
  else ((v % 2 ^ 32 : Nat) : Int) - 2 ^ 32

/-! ## Parser state and `FHexFont::ParseDefinition` -/

inductive ParseError where
  | scriptError
  deriving DecidableEq, Repr

/-- The members of `FHexFont` the parser writes: the byte arena `glyphdata`, the
table `glyphmap[65536]` and the inherited `FirstChar` / `LastChar`. -/
structure FHexFont where
  glyphdata : List Nat
  glyphmap : Nat → Nat
  FirstChar : Int
  LastChar : Int

/-- The assignment `arr[i] = v` on a `TArray<uint8_t>`, which checks no bound. The
list holds the `Count` elements of the array; an index at or past `Count` addresses
the spare capacity behind them, so that write leaves the elements as they are and
the program goes on. -/
def writeCell (arr : List Nat) (i v : Nat) : List Nat :=
  if i < arr.length then arr.set i (v % 256) else arr

/-- The text literal of line 144. -/
def emptyGlyph : List Char := List.replicate 32 '0'

/-- Modelled from the spec: `FScanner::Compare` (declared in `sc_man.h`, not part of
the sources at hand), which the spec describes as comparing the token "as raw text"
with the reference string. -/
def Compare (token text : List Char) : Bool := token = text

/-- The loop of lines 150-154, by recursion on the characters from `sc.String + i`
on: `hex` is the next two characters, or the last character alone when the
second one is the terminator (a bitstring of odd length; that pass writes the cell
after the reserved ones). -/
def storeRows : List Char → Nat → List Nat → List Nat
  | [], _, data => data
  | [c], offset, data => writeCell data offset (strtoull16 [c])
  | c1 :: c2 :: rest, offset, data =>
    storeRows rest (offset + 1) (writeCell data offset (strtoull16 [c1, c2]))

/-- Lines 146-156: the body of the `if` for a pair that is stored. `Reserve`
returns the old element count and appends `size/2 + 1` cells (shown as 0; each of
them is written by line 149 or by the loop). Nothing in these lines fails. -/
def storeGlyph (font : FHexFont) (codepoint : Int) (str : List Char) :
    Except ParseError FHexFont :=
  let size := str.length
  let offset := font.glyphdata.length
  let reserved := font.glyphdata ++ List.replicate (size / 2 + 1) 0
  .ok { glyphdata := storeRows str (offset + 1) (writeCell reserved offset (size / 2))
        glyphmap := fun c => if c = codepoint.toNat then offset else font.glyphmap c
        FirstChar := if codepoint < font.FirstChar then codepoint else font.FirstChar
        LastChar := if codepoint > font.LastChar then codepoint else font.LastChar }

/-- Line 141: `int codepoint = (int)strtoull(sc.String, nullptr, 16)`. -/
def codepointOf (cp : List Char) : Int := toInt32 (strtoull16 cp)

/-- Lines 141-157 once the three tokens of a pair are there: `cp` is the codepoint
token and `str` the bitstring token. -/
def processPair (font : FHexFont) (cp str : List Char) : Except ParseError FHexFont :=
  let codepoint := codepointOf cp
  if 0 ≤ codepoint ∧ codepoint < 65536 ∧ Compare str emptyGlyph = false then
    storeGlyph font codepoint str
  else .ok font

/-- The `while (sc.GetString())` loop over the tokens still to come.
`MustGetStringName(":")` and `MustGetString()` raise a script error when the
stream has ended, the former also when the token is not `:`. -/
def parseLoop : List (List Char) → FHexFont → Except ParseError FHexFont
  | [], font => .ok font
  | [_], _ => .error .scriptError
  | [_, _], _ => .error .scriptError
  | cp :: sep :: str :: rest, font =>
    if Compare sep [':'] then
      match processPair font cp str with
      | .ok font1 => parseLoop rest font1
      | .error e => .error e
    else .error .scriptError

/-- The state at the head of the loop: `glyphmap` zero-initialised, `glyphdata`
holding the one pushed 0, `FirstChar = INT_MAX`, `LastChar = INT_MIN`. -/
def initialFont : FHexFont :=
  { glyphdata := [0], glyphmap := fun _ => 0, FirstChar := INT_MAX, LastChar := INT_MIN }

def ParseDefinition (tokens : List (List Char)) : Except ParseError FHexFont :=
  parseLoop tokens initialFont

/-! ## `FHexFontChar` and `CreatePalettedPixels` -/

/-- The data members of `FHexFontChar`. `SourceData` is the memory the pointer
gives access to, from the pointed-to byte to the end of the arena; the sizes are
the non-negative `int`s the constructor receives. -/
structure FHexFontChar where
  SourceData : List Nat
  SourceWidth : Nat
  Width : Nat
  Height : Nat
  deriving DecidableEq, Repr

/-- The loop `for (int i = lo; i < lo + count; i++) body(i)` over a state that a
failing body aborts. -/
def forLoop {σ : Type} (body : Nat → σ → Option σ) : Nat → Nat → σ → Option σ
  | _, 0, s => some s
  | lo, count + 1, s =>
    match body lo s with
    | some s1 => forLoop body (lo + 1) count s1
    | none => none

/-- The assignment `p[i] = v` into the `uint8_t` buffer `Pixels`. -/
def writePixel (dest : List Nat) (i v : Nat) : Option (List Nat) :=
  if i < dest.length then some (dest.set i (v % 256)) else none

/-- Lines 101-109: the body of the `bit` loop; `pixelstart` is the index
`8 * x * Height + y`. -/
def bitBody (Height y x byte : Nat) (bit : Nat) (dest : List Nat) : Option (List Nat) :=
  if byte &&& (128 >>> bit) ≠ 0 then
    match writePixel dest (8 * x * Height + y + bit * Height) (y + 2) with
    | none => none
    | some dest1 =>
      if y ≠ Height - 1 then
        writePixel dest1 (8 * x * Height + y + (bit * Height + Height + 1)) 1
      else some dest1
  else some dest

/-- The pixel buffer together with the read position `src_p - SourceData`. -/
structure RasterState where
  dest : List Nat
  src_p : Nat
  deriving DecidableEq, Repr

/-- Lines 97-110: the body of the `x` loop. -/
def byteBody (g : FHexFontChar) (y x : Nat) (st : RasterState) : Option RasterState :=
  match g.SourceData[st.src_p]? with
  | none => none
  | some byte =>
    match forLoop (bitBody g.Height y x byte) 0 8 st.dest with
    | none => none
    | some dest1 => some { dest := dest1, src_p := st.src_p + 1 }

/-- Lines 95-111: the body of the `y` loop. -/
def rowBody (g : FHexFontChar) (y : Nat) (st : RasterState) : Option RasterState :=
  forLoop (byteBody g y) 0 g.SourceWidth st

/-- Lines 87-112: the zeroed buffer of `Width * Height` bytes run through the loops. -/
def rasterize (g : FHexFontChar) : Option RasterState :=
  forLoop (rowBody g) 0 g.Height { dest := List.replicate (g.Width * g.Height) 0, src_p := 0 }

def CreatePalettedPixels (g : FHexFontChar) : Option (List Nat) :=
  (rasterize g).map RasterState.dest

/-! ## Font assembly in `FHexFont::LoadTranslations` -/

/-- An entry of `Chars`: the glyph image behind `TranslatedPic`, if any, and the
advance `XMove`. -/
structure CharData where
  TranslatedPic : Option FHexFontChar
  XMove : Int
  deriving DecidableEq, Repr

def spacing : Int := 9

/-- The size given to `Chars.Resize`: `LastChar - FirstChar + 1` as a 32-bit value. -/
def charsSize (font : FHexFont) : Nat :=
  ((font.LastChar - font.FirstChar + 1) % 2 ^ 32).toNat

/-- Lines 211-220: the body of the loop for `i = FirstChar + k`. -/
def charBody (font : FHexFont) (k : Nat) (Chars : List CharData) : Option (List CharData) :=
  let i := font.FirstChar + k
  if 0 ≤ i ∧ i < 65536 ∧ k < Chars.length then
    if font.glyphmap i.toNat > 0 then
      let offset := font.glyphmap i.toNat
      match font.glyphdata[offset]? with
      | none => none
      | some count =>
        let size := count / 16
        some (Chars.set k
          { TranslatedPic := some
              { SourceData := font.glyphdata.drop (offset + 1)
                SourceWidth := size, Width := size * 9, Height := 16 }
            XMove := (size : Int) * spacing })
    else
      some (Chars.set k { (Chars.getD k ⟨none, 0⟩) with XMove := spacing })
  else none

/-- Lines 208-222: `Chars` after the loop. `fresh` is the value of a
default-constructed `CharData` (declared in `v_font.h`). -/
def LoadTranslations (fresh : CharData) (font : FHexFont) : Option (List CharData) :=
  forLoop (charBody font) 0 (font.LastChar - font.FirstChar + 1).toNat
    (List.replicate (charsSize font) fresh)

/-! ## Vocabulary of the statements -/

/-- Hex value of a character: its digit value, 0 for a character that is not a
hex digit. -/
def hexval (c : Char) : Nat := (hexDigit? c).getD 0

/-- Every character of the string is a hex digit. -/
def allHex (s : List Char) : Prop := ∀ c ∈ s, (hexDigit? c).isSome = true

instance (s : List Char) : Decidable (allHex s) := by
  unfold allHex; infer_instance

/-- The token stream of a list of (codepoint token, bitstring token) pairs, each
written with its separator. -/
def tokensOf : List (List Char × List Char) → List (List Char)
  | [] => []
  | p :: rest => p.1 :: [':'] :: p.2 :: tokensOf rest

/-- The codepoint a pair is stored under, if the guard of line 144 lets it through. -/
def storedOf (cp s : List Char) : List Int :=
  if 0 ≤ codepointOf cp ∧ codepointOf cp < 65536 ∧ s ≠ emptyGlyph then [codepointOf cp] else []

/-- The codepoints stored by a list of pairs, in stream order. -/
def storedCodepoints : List (List Char × List Char) → List Int
  | [] => []
  | p :: rest => storedOf p.1 p.2 ++ storedCodepoints rest

/-- What the parsing loop maintains, `stored` being the codepoints stored so far. -/
structure FontInv (font : FHexFont) (stored : List Int) : Prop where
  arena_pos : 1 ≤ font.glyphdata.length
  map_iff : ∀ c : Nat, font.glyphmap c ≠ 0 ↔ (c : Int) ∈ stored
  in_range : ∀ c ∈ stored, 0 ≤ c ∧ c < 65536 ∧ font.FirstChar ≤ c ∧ c ≤ font.LastChar
  none_stored : stored = [] → font.FirstChar = INT_MAX ∧ font.LastChar = INT_MIN
  attained : stored ≠ [] → font.FirstChar ∈ stored ∧ font.LastChar ∈ stored
  run_inside : ∀ c : Nat, font.glyphmap c ≠ 0 →
    ∃ n, font.glyphdata[font.glyphmap c]? = some n ∧
      font.glyphmap c + n < font.glyphdata.length

/-- The bit of the source bitmap at row `r`, column `c`: `c` is one of the
`8 * SourceWidth` data columns and bit `7 - c % 8` of source byte
`r * SourceWidth + c / 8` is set. -/
def lit (SourceWidth : Nat) (src : List Nat) (r c : Nat) : Bool :=
  decide (c < 8 * SourceWidth) &&
    (src.getD (r * SourceWidth + c / 8) 0).testBit (7 - c % 8)

/-- The closed-form pixel at column `c`, row `r`: the row gradient on a lit bit,
else the shadow of the bit up and to the left, else background. -/
def refPixel (SourceWidth : Nat) (src : List Nat) (c r : Nat) : Nat :=
  if lit SourceWidth src r c = true then r + 2
  else if 1 ≤ r ∧ 1 ≤ c ∧ lit SourceWidth src (r - 1) (c - 1) = true then 1
  else 0

/-- The pixel at column `c`, row `r` once the loops have handled the rows before
`y` and the first `m` data columns of row `y`. -/
def pixAt (SourceWidth : Nat) (src : List Nat) (y m c r : Nat) : Nat :=
  if (r < y ∨ (r = y ∧ c < m)) ∧ lit SourceWidth src r c = true then r + 2
  else if 1 ≤ r ∧ 1 ≤ c ∧ (r - 1 < y ∨ (r - 1 = y ∧ c - 1 < m)) ∧
      lit SourceWidth src (r - 1) (c - 1) = true then 1
  else 0

/-- The buffer holds `pixAt y m` at every pixel of the `9 * SourceWidth` by 16 image. -/
def RasterInv (SourceWidth : Nat) (src : List Nat) (y m : Nat) (dest : List Nat) : Prop :=
  dest.length = 9 * SourceWidth * 16 ∧
    ∀ c r, c < 9 * SourceWidth → r < 16 →
      dest[c * 16 + r]? = some (pixAt SourceWidth src y m c r)

/-- The entry font assembly gives codepoint `i`: the glyph over the run behind
`glyphmap[i]` with its advance, or the fresh entry with the fallback advance. -/
def charEntry (fresh : CharData) (font : FHexFont) (i : Int) : CharData :=
  if font.glyphmap i.toNat > 0 then
    { TranslatedPic := some
        { SourceData := font.glyphdata.drop (font.glyphmap i.toNat + 1)
          SourceWidth := font.glyphdata.getD (font.glyphmap i.toNat) 0 / 16
          Width := font.glyphdata.getD (font.glyphmap i.toNat) 0 / 16 * 9
          Height := 16 }
      XMove := ((font.glyphdata.getD (font.glyphmap i.toNat) 0 / 16 : Nat) : Int) * spacing }
  else { fresh with XMove := spacing }

/-- Two stored glyphs, `0041 : C3` and `0043 : FF`, leaving codepoint 0x42 absent
inside `[FirstChar, LastChar]`. -/
def exampleTokens : List (List Char) :=
  [['0', '0', '4', '1'], [':'], ['C', '3'], ['0', '0', '4', '3'], [':'], ['F', 'F']]

/-- The state `ParseDefinition` reaches on `exampleTokens`. -/
def exampleFont : FHexFont :=
  { glyphdata := [0, 1, 195, 1, 255]
    glyphmap := fun c => if c = 67 then 3 else if c = 65 then 1 else 0
    FirstChar := 65
    LastChar := 67 }

/-- A well-formed list of pairs: two stored glyphs, a pair with the skip literal
and a pair with a codepoint above 65535. -/
def examplePairs : List (List Char × List Char) :=
  [(['0', '0', '4', '3'], ['F', 'F']), (['0', '0', '2', '0'], List.replicate 32 '0'),
   (['1', '0', '0', '0', '0'], ['F', 'F']), (['0', '0', '4', '1'], ['C', '3'])]

/-- The 16 row bytes of the worked example `C3C3000000000000000000000000C3C3`. -/
def exampleRows : List Nat := [195, 195, 0, 0, 0, 0, 0, 0, 0, 0, 0, 0, 0, 0, 195, 195]

/-- The token stream `0041 : C3C3000000000000000000000000C3C3`. -/
def exampleA : List (List Char) :=
  [['0', '0', '4', '1'], [':'],
   ['C', '3', 'C', '3', '0', '0', '0', '0', '0', '0', '0', '0', '0', '0', '0', '0',
    '0', '0', '0', '0', '0', '0', '0', '0', '0', '0', '0', '0', 'C', '3', 'C', '3']]

/-- The 9 by 16 buffer of the worked example, column after column. -/
def examplePixels : List Nat :=
  [2, 3, 0, 0, 0, 0, 0, 0, 0, 0, 0, 0, 0, 0, 16, 17,
   2, 3, 1, 0, 0, 0, 0, 0, 0, 0, 0, 0, 0, 0, 16, 17,
   0, 1, 1, 0, 0, 0, 0, 0, 0, 0, 0, 0, 0, 0, 0, 1,
   0, 0, 0, 0, 0, 0, 0, 0, 0, 0, 0, 0, 0, 0, 0, 0,
   0, 0, 0, 0, 0, 0, 0, 0, 0, 0, 0, 0, 0, 0, 0, 0,
   0, 0, 0, 0, 0, 0, 0, 0, 0, 0, 0, 0, 0, 0, 0, 0,
   2, 3, 0, 0, 0, 0, 0, 0, 0, 0, 0, 0, 0, 0, 16, 17,
   2, 3, 1, 0, 0, 0, 0, 0, 0, 0, 0, 0, 0, 0, 16, 17,
   0, 1, 1, 0, 0, 0, 0, 0, 0, 0, 0, 0, 0, 0, 0, 1]

/-- Source rows `80 40 00 ..`: the bit at row 0, column 0 and the bit at row 1,
column 1 are set. -/
def diagonalRows : List Nat := [128, 64, 0, 0, 0, 0, 0, 0, 0, 0, 0, 0, 0, 0, 0, 0]

/-- Line 204: `luminosity[i] = i == 1 ? 0.01 : 0.5 + (i-2) * (0.5 / 17.)`, with the
floating-point constants read as exact rationals. -/
def luminosity (i : Nat) : ℚ :=
  if i = 1 then 1 / 100 else 1 / 2 + (((i : Int) - 2 : Int) : ℚ) * ((1 / 2) / 17)

/-- Lines 200-206: the entries of `luminosity` the loop fills, `ActiveColors = 18`
of them. -/
def luminosityRamp : List ℚ := (List.range 18).map luminosity

/-- The arena bytes a pair takes: `len/2 + 1` when it is stored, none otherwise. -/
def runLength (p : List Char × List Char) : Nat :=
  if 0 ≤ codepointOf p.1 ∧ codepointOf p.1 < 65536 ∧ p.2 ≠ emptyGlyph then
    p.2.length / 2 + 1
  else 0

/-- The arena bytes taken by the stored runs of a list of pairs. -/
def runBytes : List (List Char × List Char) → Nat
  | [] => 0
  | p :: rest => runLength p + runBytes rest

/-- The tokens, taken three at a time, contain a triple whose second token is not
`:` or end after the first or second token of a triple. -/
def malformed : List (List Char) → Bool
  | [] => false
  | [_] => true
  | [_, _] => true
  | _ :: sep :: _ :: rest => sep != [':'] || malformed rest

/-- The pair `0041 : C3`. -/
def pairA : List Char × List Char := (['0', '0', '4', '1'], ['C', '3'])

/-- The pair `0043 : FF0F`. -/
def pairC : List Char × List Char := (['0', '0', '4', '3'], ['F', 'F', '0', 'F'])

/-- The pair `41 : 0180`, a second glyph for codepoint 0x41. -/
def pairA2 : List Char × List Char := (['4', '1'], ['0', '1', '8', '0'])

/-- The pairs `0020 : 0000..00` (skip literal) and `10000 : F` (codepoint out of
range), neither of which is stored. -/
def skippedPairs : List (List Char × List Char) :=
  [(['0', '0', '2', '0'], List.replicate 32 '0'), (['1', '0', '0', '0', '0'], ['F'])]

/-- Source rows with every bit set, `16 * SourceWidth` bytes `FF`. -/
def solidRows (SourceWidth : Nat) : List Nat := List.replicate (16 * SourceWidth) 255

/-- The state `ParseDefinition` reaches on `exampleA`. -/
def exampleAFont : FHexFont :=
  { glyphdata := 0 :: 16 :: exampleRows
    glyphmap := fun c => if c = 65 then 1 else 0
    FirstChar := 65
    LastChar := 65 }

/-- The pair `41 : F`, a stored bitstring of odd length. -/
def pairOdd : List Char × List Char := (['4', '1'], ['F'])

/-- The pair `42 : FF`. -/
def pairB : List Char × List Char := (['4', '2'], ['F', 'F'])

/-! ## Properties

### The C library and the store loop -/

theorem hexDigit?_lt {c : Char} {d : Nat} (h : hexDigit? c = some d) : d < 16 := by
  unfold hexDigit? at h
  split_ifs at h <;> simp at h <;> omega

theorem hexDigit?_toNat {c : Char} {d : Nat} (h : hexDigit? c = some d) :
    48 ≤ c.toNat ∧ c.toNat ≤ 102 := by
  unfold hexDigit? at h
  split_ifs at h <;> omega

theorem strtoull16_pair {c1 c2 : Char} {d1 d2 : Nat}
    (h1 : hexDigit? c1 = some d1) (h2 : hexDigit? c2 = some d2) :
    strtoull16 [c1, c2] = 16 * d1 + d2 := by
  have b1 := hexDigit?_toNat h1
  have l1 := hexDigit?_lt h1
  have l2 := hexDigit?_lt h2
  have hsp : isspace c1 = false := by
    simp [isspace]; omega
  have hm : c1 ≠ '-' := by rintro rfl; revert b1; decide
  have hp : c1 ≠ '+' := by rintro rfl; revert b1; decide
  have hs : stripSign [c1, c2] = (false, [c1, c2]) := by
    unfold stripSign
    split
    · rename_i h; simp at h; exact absurd h.1 hm
    · rename_i h; simp at h; exact absurd h.1 hp
    · rfl
  have hx : strip0x [c1, c2] = [c1, c2] := by
    unfold strip0x
    split
    · rename_i h; simp at h
    · rfl
  simp [strtoull16, List.dropWhile, hsp, hs, hx, accumHex, h1, h2, ULLONG_MAX]
  omega

/-- The store loop on a buffer whose cells from `offset` on are the `len/2` cells
reserved for the rows: the element count is kept, the cells before `offset` and
after the rows are kept, and row `i` holds the byte decoded from characters `2i`,
`2i+1`. For a bitstring of odd length the last pass falls on the cell after the
elements. -/
theorem storeRows_spec : ∀ (s : List Char) (offset : Nat) (data : List Nat),
    offset + s.length / 2 ≤ data.length →
    (s.length % 2 = 1 → data.length ≤ offset + s.length / 2) →
    (storeRows s offset data).length = data.length ∧
      (∀ j, j < offset ∨ offset + s.length / 2 ≤ j → (storeRows s offset data)[j]? = data[j]?) ∧
      (∀ i, i < s.length / 2 →
        (storeRows s offset data)[offset + i]? =
          some (strtoull16 [s.getD (2 * i) '0', s.getD (2 * i + 1) '0'] % 256))
  | [], offset, data, _, _ => by
    refine ⟨rfl, fun _ _ => rfl, ?_⟩
    intro i hi; simp at hi
  | [c], offset, data, _, hodd => by
    have h1 : [c].length / 2 = 0 := by
      simp only [List.length_singleton]
    have hge : data.length ≤ offset := by
      have := hodd rfl
      rw [h1] at this
      omega
    have hw : storeRows [c] offset data = data := by
      simp only [storeRows, writeCell]
      rw [if_neg (by omega)]
    rw [hw, h1]
    refine ⟨rfl, fun _ _ => rfl, ?_⟩
    intro i hi
    omega
  | c1 :: c2 :: rest, offset, data, hlen, hodd => by
    have hl : (c1 :: c2 :: rest).length / 2 = rest.length / 2 + 1 := by
      simp only [List.length_cons]; omega
    have hpar : (c1 :: c2 :: rest).length % 2 = rest.length % 2 := by
      simp only [List.length_cons]; omega
    rw [hl] at hlen
    rw [hl, hpar] at hodd
    have hlt : offset < data.length := by omega
    have hw : storeRows (c1 :: c2 :: rest) offset data =
        storeRows rest (offset + 1) (data.set offset (strtoull16 [c1, c2] % 256)) := by
      simp only [storeRows, writeCell, hlt, if_true]
    obtain ⟨hlen1, hframe, hrows⟩ :=
      storeRows_spec rest (offset + 1) (data.set offset (strtoull16 [c1, c2] % 256))
        (by rw [List.length_set]; omega)
        (fun h => by rw [List.length_set]; have := hodd h; omega)
    rw [hw]
    refine ⟨?_, ?_, ?_⟩
    · rw [hlen1, List.length_set]
    · intro j hj
      rw [hl] at hj
      rw [hframe j (by omega), List.getElem?_set_ne (by omega)]
    · intro i hi
      rw [hl] at hi
      cases i with
      | zero =>
        have h0 := hframe offset (by omega)
        rw [show offset + 0 = offset from rfl, h0]
        simp [hlt]
      | succ k =>
        have := hrows k (by omega)
        rw [show offset + (k + 1) = offset + 1 + k by omega, this]
        simp [show 2 * (k + 1) = 2 * k + 2 by ring, show 2 * (k + 1) + 1 = 2 * k + 1 + 2 by ring]

/-- A stored pair, whatever the length of its bitstring: the arena grows by
`len/2 + 1` cells, the first of them holding `len/2` modulo 256 and the others the
decoded rows; the earlier bytes are kept. -/
theorem storeGlyph_any (font : FHexFont) (codepoint : Int) (s : List Char) :
    ∃ font1, storeGlyph font codepoint s = .ok font1 ∧
      font1.glyphdata.length = font.glyphdata.length + (s.length / 2 + 1) ∧
      font1.glyphmap = (fun c => if c = codepoint.toNat then font.glyphdata.length
        else font.glyphmap c) ∧
      font1.FirstChar = (if codepoint < font.FirstChar then codepoint else font.FirstChar) ∧
      font1.LastChar = (if codepoint > font.LastChar then codepoint else font.LastChar) ∧
      (∀ j, j < font.glyphdata.length → font1.glyphdata[j]? = font.glyphdata[j]?) ∧
      font1.glyphdata[font.glyphdata.length]? = some (s.length / 2 % 256) ∧
      (∀ i, i < s.length / 2 → font1.glyphdata[font.glyphdata.length + 1 + i]? =
        some (strtoull16 [s.getD (2 * i) '0', s.getD (2 * i + 1) '0'] % 256)) := by
  have hlen0 : ((font.glyphdata ++ List.replicate (s.length / 2 + 1) 0).set
      font.glyphdata.length (s.length / 2 % 256)).length
      = font.glyphdata.length + (s.length / 2 + 1) := by
    simp
  have hw0 : writeCell (font.glyphdata ++ List.replicate (s.length / 2 + 1) 0)
      font.glyphdata.length (s.length / 2) =
      (font.glyphdata ++ List.replicate (s.length / 2 + 1) 0).set
        font.glyphdata.length (s.length / 2 % 256) := by
    simp only [writeCell, List.length_append, List.length_replicate,
      show font.glyphdata.length < font.glyphdata.length + (s.length / 2 + 1) by omega,
      if_true]
  obtain ⟨hlen1, hframe, hrows⟩ :=
    storeRows_spec s (font.glyphdata.length + 1)
      ((font.glyphdata ++ List.replicate (s.length / 2 + 1) 0).set
        font.glyphdata.length (s.length / 2 % 256)) (by rw [hlen0]; omega)
      (fun _ => by rw [hlen0]; omega)
  refine ⟨{ glyphdata := storeRows s (font.glyphdata.length + 1)
              ((font.glyphdata ++ List.replicate (s.length / 2 + 1) 0).set
                font.glyphdata.length (s.length / 2 % 256))
            glyphmap := fun c => if c = codepoint.toNat then font.glyphdata.length
              else font.glyphmap c
            FirstChar := if codepoint < font.FirstChar then codepoint else font.FirstChar
            LastChar := if codepoint > font.LastChar then codepoint else font.LastChar },
    ?_, ?_, rfl, rfl, rfl, ?_, ?_, ?_⟩
  · simp only [storeGlyph, hw0]
  · simp only [hlen1, hlen0]
  · intro j hj
    simp only []
    rw [hframe j (by omega), List.getElem?_set_ne (by omega), List.getElem?_append_left hj]
  · simp only []
    rw [hframe _ (by omega), List.getElem?_set_self (by simp)]
  · intro i hi
    exact hrows i hi

theorem storeGlyph_even (font : FHexFont) (codepoint : Int) (s : List Char)
    (_h : s.length % 2 = 0) :
    ∃ font1, storeGlyph font codepoint s = .ok font1 ∧
      font1.glyphdata.length = font.glyphdata.length + (s.length / 2 + 1) ∧
      font1.glyphmap = (fun c => if c = codepoint.toNat then font.glyphdata.length
        else font.glyphmap c) ∧
      font1.FirstChar = (if codepoint < font.FirstChar then codepoint else font.FirstChar) ∧
      font1.LastChar = (if codepoint > font.LastChar then codepoint else font.LastChar) ∧
      (∀ j, j < font.glyphdata.length → font1.glyphdata[j]? = font.glyphdata[j]?) ∧
      font1.glyphdata[font.glyphdata.length]? = some (s.length / 2 % 256) ∧
      (∀ i, i < s.length / 2 → font1.glyphdata[font.glyphdata.length + 1 + i]? =
        some (strtoull16 [s.getD (2 * i) '0', s.getD (2 * i + 1) '0'] % 256)) :=
  storeGlyph_any font codepoint s

theorem processPair_stored (font : FHexFont) (cp s : List Char)
    (hlo : 0 ≤ codepointOf cp) (hhi : codepointOf cp < 65536) (hskip : s ≠ emptyGlyph) :
    processPair font cp s = storeGlyph font (codepointOf cp) s := by
  simp [processPair, Compare, hlo, hhi, hskip]

theorem processPair_skipped (font : FHexFont) (cp s : List Char)
    (h : ¬ (0 ≤ codepointOf cp ∧ codepointOf cp < 65536) ∨ s = emptyGlyph) :
    processPair font cp s = .ok font := by
  unfold processPair
  rw [if_neg]
  rintro ⟨h1, h2, h3⟩
  rcases h with h | h
  · exact h ⟨h1, h2⟩
  · simp [Compare, h] at h3

theorem decode_hex_pair (s : List Char) (hhex : allHex s) (i : Nat) (hi : 2 * i + 1 < s.length) :
    strtoull16 [s.getD (2 * i) '0', s.getD (2 * i + 1) '0'] % 256
      = 16 * hexval (s.getD (2 * i) '0') + hexval (s.getD (2 * i + 1) '0') := by
  have m1 : s.getD (2 * i) '0' ∈ s := by
    rw [List.getD_eq_getElem s '0' (by omega)]; exact List.getElem_mem _
  have m2 : s.getD (2 * i + 1) '0' ∈ s := by
    rw [List.getD_eq_getElem s '0' hi]; exact List.getElem_mem _
  obtain ⟨d1, h1⟩ := Option.isSome_iff_exists.mp (hhex _ m1)
  obtain ⟨d2, h2⟩ := Option.isSome_iff_exists.mp (hhex _ m2)
  have l1 := hexDigit?_lt h1
  have l2 := hexDigit?_lt h2
  rw [strtoull16_pair h1 h2]
  simp only [hexval, h1, h2, Option.getD_some]
  omega

/-! ### The invariant of the parsing loop -/

theorem initialFont_inv : FontInv initialFont [] where
  arena_pos := by simp [initialFont]
  map_iff := by intro c; simp [initialFont]
  in_range := by intro c hc; simp at hc
  none_stored := fun _ => ⟨rfl, rfl⟩
  attained := fun h => absurd rfl h
  run_inside := by intro c hc; simp [initialFont] at hc

theorem storeGlyph_inv (font font1 : FHexFont) (stored : List Int) (codepoint : Int)
    (s : List Char) (hinv : FontInv font stored)
    (hlo : 0 ≤ codepoint) (hhi : codepoint < 65536)
    (hok : storeGlyph font codepoint s = .ok font1) :
    FontInv font1 (stored ++ [codepoint]) := by
  obtain ⟨font2, hok2, hlen, hmap, hfirst, hlast, hframe, hpre, -⟩ :=
    storeGlyph_any font codepoint s
  rw [hok2] at hok
  cases hok
  have hpos := hinv.arena_pos
  have hmapval : ∀ c : Nat, font1.glyphmap c =
      if c = codepoint.toNat then font.glyphdata.length else font.glyphmap c := by
    intro c; rw [hmap]
  have hcast : ∀ c : Nat, (c : Int) = codepoint ↔ c = codepoint.toNat := by
    intro c; omega
  constructor
  · omega
  · intro c
    rw [hmapval c, List.mem_append, List.mem_singleton, hcast c]
    by_cases hc : c = codepoint.toNat
    · rw [if_pos hc]
      exact ⟨fun _ => Or.inr hc, fun _ => by omega⟩
    · rw [if_neg hc, hinv.map_iff c]
      exact ⟨Or.inl, fun h => h.resolve_right hc⟩
  · intro c hc
    rw [hfirst, hlast]
    rw [List.mem_append, List.mem_singleton] at hc
    rcases hc with hc | hc
    · obtain ⟨h1, h2, h3, h4⟩ := hinv.in_range c hc
      refine ⟨h1, h2, ?_, ?_⟩ <;> split_ifs <;> omega
    · subst hc
      refine ⟨hlo, hhi, ?_, ?_⟩ <;> split_ifs <;> omega
  · intro h; simp at h
  · intro _
    rw [hfirst, hlast]
    by_cases hst : stored = []
    · obtain ⟨h1, h2⟩ := hinv.none_stored hst
      have hi1 : INT_MAX = 2147483647 := rfl
      have hi2 : INT_MIN = -2147483648 := rfl
      have hc1 : codepoint < INT_MAX := by omega
      have hc2 : codepoint > INT_MIN := by omega
      rw [h1, h2, if_pos hc1, if_pos hc2]
      simp
    · obtain ⟨h1, h2⟩ := hinv.attained hst
      constructor <;> split_ifs <;> simp [h1, h2]
  · intro c hc
    rw [hmapval c] at hc ⊢
    by_cases hcc : c = codepoint.toNat
    · rw [if_pos hcc]
      exact ⟨_, hpre, by rw [hlen]; have := Nat.mod_le (s.length / 2) 256; omega⟩
    · rw [if_neg hcc] at hc ⊢
      obtain ⟨n, hn, hlt⟩ := hinv.run_inside c hc
      exact ⟨n, by rw [hframe _ (by omega), hn], by omega⟩

theorem processPair_inv (font font1 : FHexFont) (stored : List Int) (cp s : List Char)
    (hinv : FontInv font stored) (hok : processPair font cp s = .ok font1) :
    FontInv font1 (stored ++ storedOf cp s) := by
  unfold storedOf
  by_cases hg : 0 ≤ codepointOf cp ∧ codepointOf cp < 65536 ∧ s ≠ emptyGlyph
  · rw [if_pos hg]
    rw [processPair_stored font cp s hg.1 hg.2.1 hg.2.2] at hok
    exact storeGlyph_inv font font1 stored _ s hinv hg.1 hg.2.1 hok
  · rw [if_neg hg, List.append_nil]
    rw [processPair_skipped font cp s (by tauto)] at hok
    cases hok
    exact hinv

theorem processPair_even_ok (font : FHexFont) (cp s : List Char) (h : s.length % 2 = 0) :
    ∃ font1, processPair font cp s = .ok font1 := by
  by_cases hg : 0 ≤ codepointOf cp ∧ codepointOf cp < 65536 ∧ s ≠ emptyGlyph
  · obtain ⟨font1, hok, -⟩ := storeGlyph_even font (codepointOf cp) s h
    exact ⟨font1, by rw [processPair_stored font cp s hg.1 hg.2.1 hg.2.2, hok]⟩
  · exact ⟨font, processPair_skipped font cp s (by tauto)⟩

theorem parseLoop_inv : ∀ (tokens : List (List Char)) (font font1 : FHexFont)
    (stored : List Int), FontInv font stored → parseLoop tokens font = .ok font1 →
    ∃ stored1, FontInv font1 stored1
  | [], font, font1, stored, hinv, hok => by
    simp only [parseLoop] at hok
    cases hok
    exact ⟨stored, hinv⟩
  | [_], _, _, _, _, hok => by simp [parseLoop] at hok
  | [_, _], _, _, _, _, hok => by simp [parseLoop] at hok
  | cp :: sep :: str :: rest, font, font1, stored, hinv, hok => by
    simp only [parseLoop] at hok
    split at hok
    · split at hok
      · rename_i font2 hpair
        exact parseLoop_inv rest font2 font1 _ (processPair_inv font font2 stored cp str hinv hpair)
          hok
      · cases hok
    · cases hok

theorem parseLoop_tokensOf : ∀ (pairs : List (List Char × List Char)) (font : FHexFont)
    (stored : List Int), (∀ p ∈ pairs, p.2.length % 2 = 0) → FontInv font stored →
    ∃ font1, parseLoop (tokensOf pairs) font = .ok font1 ∧
      FontInv font1 (stored ++ storedCodepoints pairs)
  | [], font, stored, _, hinv => by
    refine ⟨font, rfl, ?_⟩
    simpa [storedCodepoints] using hinv
  | p :: rest, font, stored, hwf, hinv => by
    obtain ⟨font2, hpair⟩ := processPair_even_ok font p.1 p.2 (hwf p (List.mem_cons_self _ _))
    obtain ⟨font1, hok, hinv1⟩ := parseLoop_tokensOf rest font2 (stored ++ storedOf p.1 p.2)
      (fun q hq => hwf q (List.mem_cons_of_mem _ hq))
      (processPair_inv font font2 stored p.1 p.2 hinv hpair)
    refine ⟨font1, ?_, ?_⟩
    · simp only [tokensOf, parseLoop, Compare, decide_True, if_true, hpair]
      exact hok
    · simpa [storedCodepoints, List.append_assoc] using hinv1

theorem FontInv.first_le_last_iff {font : FHexFont} {stored : List Int}
    (hinv : FontInv font stored) : font.FirstChar ≤ font.LastChar ↔ stored ≠ [] := by
  constructor
  · intro hle hst
    obtain ⟨h1, h2⟩ := hinv.none_stored hst
    rw [h1, h2] at hle
    exact absurd hle (by decide)
  · intro hst
    obtain ⟨h1, -⟩ := hinv.attained hst
    obtain ⟨-, -, -, h4⟩ := hinv.in_range _ h1
    exact h4

/-! ### The rasterizer loops -/

theorem forLoop_invariant {σ : Type} (body : Nat → σ → Option σ) (P : Nat → σ → Prop) :
    ∀ (n lo : Nat) (s : σ), P lo s →
      (∀ i t, lo ≤ i → i < lo + n → P i t → ∃ t1, body i t = some t1 ∧ P (i + 1) t1) →
      ∃ s1, forLoop body lo n s = some s1 ∧ P (lo + n) s1 := by
  intro n
  induction n with
  | zero =>
    intro lo s h0 _
    exact ⟨s, rfl, h0⟩
  | succ k ih =>
    intro lo s h0 hstep
    obtain ⟨t1, hb, hP⟩ := hstep lo s (Nat.le_refl _) (by omega) h0
    obtain ⟨s1, hl, hQ⟩ := ih (lo + 1) t1 hP
      (fun i t hi1 hi2 hPi => hstep i t (by omega) (by omega) hPi)
    refine ⟨s1, ?_, ?_⟩
    · simp only [forLoop, hb]
      exact hl
    · rw [show lo + (k + 1) = lo + 1 + k by omega]
      exact hQ

theorem and_two_pow_ne_zero (x i : Nat) : x &&& 2 ^ i ≠ 0 ↔ x.testBit i = true := by
  constructor
  · intro h
    obtain ⟨j, hj⟩ := Nat.ne_zero_implies_bit_true h
    rw [Nat.testBit_and, Nat.testBit_two_pow] at hj
    simp only [Bool.and_eq_true, decide_eq_true_eq] at hj
    rw [hj.2]
    exact hj.1
  · intro h h0
    have : (x &&& 2 ^ i).testBit i = true := by
      rw [Nat.testBit_and, Nat.testBit_two_pow_self, h]
      rfl
    rw [h0, Nat.zero_testBit] at this
    cases this

theorem mask_test (byte bit : Nat) (h : bit < 8) :
    byte &&& (128 >>> bit) ≠ 0 ↔ byte.testBit (7 - bit) = true := by
  have : 128 >>> bit = 2 ^ (7 - bit) := by
    interval_cases bit <;> rfl
  rw [this]
  exact and_two_pow_ne_zero byte (7 - bit)

theorem pixAt_succ_unlit (SW : Nat) (src : List Nat) (y m c r : Nat)
    (hl : lit SW src y m = false) :
    pixAt SW src y (m + 1) c r = pixAt SW src y m c r := by
  have e1 : ((r < y ∨ (r = y ∧ c < m + 1)) ∧ lit SW src r c = true) ↔
      ((r < y ∨ (r = y ∧ c < m)) ∧ lit SW src r c = true) := by
    constructor
    · rintro ⟨h1, h2⟩
      refine ⟨?_, h2⟩
      by_cases hcm : r = y ∧ c = m
      · rw [hcm.1, hcm.2, hl] at h2; cases h2
      · omega
    · rintro ⟨h1, h2⟩
      exact ⟨by omega, h2⟩
  have e2 : (1 ≤ r ∧ 1 ≤ c ∧ (r - 1 < y ∨ (r - 1 = y ∧ c - 1 < m + 1)) ∧
        lit SW src (r - 1) (c - 1) = true) ↔
      (1 ≤ r ∧ 1 ≤ c ∧ (r - 1 < y ∨ (r - 1 = y ∧ c - 1 < m)) ∧
        lit SW src (r - 1) (c - 1) = true) := by
    constructor
    · rintro ⟨h0, h0', h1, h2⟩
      refine ⟨h0, h0', ?_, h2⟩
      by_cases hcm : r - 1 = y ∧ c - 1 = m
      · rw [hcm.1, hcm.2, hl] at h2; cases h2
      · omega
    · rintro ⟨h0, h0', h1, h2⟩
      exact ⟨h0, h0', by omega, h2⟩
  unfold pixAt
  simp only [e1, e2]

theorem pixAt_succ_lit (SW : Nat) (src : List Nat) (y m c r : Nat)
    (hl : lit SW src y m = true) :
    pixAt SW src y (m + 1) c r =
      if c = m ∧ r = y then y + 2
      else if c = m + 1 ∧ r = y + 1 then 1
      else pixAt SW src y m c r := by
  by_cases h1 : c = m ∧ r = y
  · rw [if_pos h1, h1.1, h1.2]
    unfold pixAt
    rw [if_pos ⟨by omega, hl⟩]
  rw [if_neg h1]
  by_cases h2 : c = m + 1 ∧ r = y + 1
  · rw [if_pos h2, h2.1, h2.2]
    unfold pixAt
    rw [if_neg (by omega), if_pos ⟨by omega, by omega, by omega, by simpa using hl⟩]
  rw [if_neg h2]
  have e1 : ((r < y ∨ (r = y ∧ c < m + 1)) ∧ lit SW src r c = true) ↔
      ((r < y ∨ (r = y ∧ c < m)) ∧ lit SW src r c = true) := by
    constructor
    · rintro ⟨h, h'⟩; exact ⟨by omega, h'⟩
    · rintro ⟨h, h'⟩; exact ⟨by omega, h'⟩
  have e2 : (1 ≤ r ∧ 1 ≤ c ∧ (r - 1 < y ∨ (r - 1 = y ∧ c - 1 < m + 1)) ∧
        lit SW src (r - 1) (c - 1) = true) ↔
      (1 ≤ r ∧ 1 ≤ c ∧ (r - 1 < y ∨ (r - 1 = y ∧ c - 1 < m)) ∧
        lit SW src (r - 1) (c - 1) = true) := by
    constructor
    · rintro ⟨h0, h0', h, h'⟩; exact ⟨h0, h0', by omega, h'⟩
    · rintro ⟨h0, h0', h, h'⟩; exact ⟨h0, h0', by omega, h'⟩
  unfold pixAt
  simp only [e1, e2]

theorem lit_cell (SW : Nat) (src : List Nat) (y x bit byte : Nat)
    (hx : x < SW) (hbit : bit < 8) (hbyte : src[y * SW + x]? = some byte) :
    lit SW src y (8 * x + bit) = byte.testBit (7 - bit) := by
  unfold lit
  have h1 : (8 * x + bit) / 8 = x := by omega
  have h2 : (8 * x + bit) % 8 = bit := by omega
  have h3 : 8 * x + bit < 8 * SW := by omega
  rw [h1, h2, List.getD_eq_getElem?_getD, hbyte]
  simp [h3]

theorem bitBody_step (SW : Nat) (src : List Nat) (y x bit byte : Nat) (dest : List Nat)
    (hy : y < 16) (hx : x < SW) (hbit : bit < 8) (hbyte : src[y * SW + x]? = some byte)
    (hinv : RasterInv SW src y (8 * x + bit) dest) :
    ∃ dest1, bitBody 16 y x byte bit dest = some dest1 ∧
      RasterInv SW src y (8 * x + (bit + 1)) dest1 := by
  obtain ⟨hlen, hpix⟩ := hinv
  have hcell := lit_cell SW src y x bit byte hx hbit hbyte
  rw [show 8 * x + (bit + 1) = 8 * x + bit + 1 by omega]
  unfold bitBody
  by_cases hb : byte.testBit (7 - bit) = true
  · rw [if_pos ((mask_test byte bit hbit).mpr hb)]
    have hl : lit SW src y (8 * x + bit) = true := by rw [hcell, hb]
    have hi1 : 8 * x * 16 + y + bit * 16 < dest.length := by omega
    have hv : (y + 2) % 256 = y + 2 := by omega
    simp only [writePixel, hi1, if_true, hv, List.length_set]
    by_cases hlast : y = 16 - 1
    · rw [if_neg (by simpa using hlast)]
      refine ⟨_, rfl, by rw [List.length_set]; exact hlen, ?_⟩
      intro c r hc hr
      rw [pixAt_succ_lit SW src y _ c r hl, List.getElem?_set]
      by_cases hcr : c = 8 * x + bit ∧ r = y
      · rw [if_pos hcr, if_pos (by omega), if_pos (by omega)]
      · rw [if_neg hcr, if_neg (by omega), if_neg (by omega)]
        exact hpix c r hc hr
    · rw [if_pos hlast]
      have hi2 : 8 * x * 16 + y + (bit * 16 + 16 + 1) < dest.length := by omega
      rw [if_pos hi2]
      refine ⟨_, rfl, by rw [List.length_set, List.length_set]; exact hlen, ?_⟩
      intro c r hc hr
      rw [pixAt_succ_lit SW src y _ c r hl, List.getElem?_set, List.getElem?_set]
      by_cases hcr : c = 8 * x + bit ∧ r = y
      · rw [if_pos hcr, if_neg (by omega), if_pos (by omega), if_pos (by omega)]
      · rw [if_neg hcr]
        by_cases hcr2 : c = 8 * x + bit + 1 ∧ r = y + 1
        · rw [if_pos hcr2, if_pos (by omega), if_pos (by rw [List.length_set]; omega)]
        · rw [if_neg hcr2, if_neg (by omega), if_neg (by omega)]
          exact hpix c r hc hr
  · rw [if_neg (fun h => hb ((mask_test byte bit hbit).mp h))]
    have hl : lit SW src y (8 * x + bit) = false := by
      rw [hcell]; simpa using hb
    refine ⟨dest, rfl, hlen, ?_⟩
    intro c r hc hr
    rw [pixAt_succ_unlit SW src y _ c r hl]
    exact hpix c r hc hr

theorem lit_lt {SW : Nat} {src : List Nat} {r c : Nat} (h : lit SW src r c = true) :
    c < 8 * SW := by
  unfold lit at h
  simp only [Bool.and_eq_true, decide_eq_true_eq] at h
  exact h.1

theorem pixAt_row_done (SW : Nat) (src : List Nat) (y c r : Nat) :
    pixAt SW src y (8 * SW) c r = pixAt SW src (y + 1) 0 c r := by
  have e1 : ((r < y ∨ (r = y ∧ c < 8 * SW)) ∧ lit SW src r c = true) ↔
      ((r < y + 1 ∨ (r = y + 1 ∧ c < 0)) ∧ lit SW src r c = true) := by
    constructor
    · rintro ⟨h, h'⟩; exact ⟨by omega, h'⟩
    · rintro ⟨h, h'⟩
      have := lit_lt h'
      exact ⟨by omega, h'⟩
  have e2 : (1 ≤ r ∧ 1 ≤ c ∧ (r - 1 < y ∨ (r - 1 = y ∧ c - 1 < 8 * SW)) ∧
        lit SW src (r - 1) (c - 1) = true) ↔
      (1 ≤ r ∧ 1 ≤ c ∧ (r - 1 < y + 1 ∨ (r - 1 = y + 1 ∧ c - 1 < 0)) ∧
        lit SW src (r - 1) (c - 1) = true) := by
    constructor
    · rintro ⟨h0, h0', h, h'⟩; exact ⟨h0, h0', by omega, h'⟩
    · rintro ⟨h0, h0', h, h'⟩
      have := lit_lt h'
      exact ⟨h0, h0', by omega, h'⟩
  unfold pixAt
  simp only [e1, e2]

theorem pixAt_start (SW : Nat) (src : List Nat) (c r : Nat) : pixAt SW src 0 0 c r = 0 := by
  unfold pixAt
  rw [if_neg (by omega), if_neg (by omega)]

theorem pixAt_end (SW : Nat) (src : List Nat) (c r : Nat) (hr : r < 16) :
    pixAt SW src 16 0 c r = refPixel SW src c r := by
  have e1 : ((r < 16 ∨ (r = 16 ∧ c < 0)) ∧ lit SW src r c = true) ↔
      lit SW src r c = true := by
    constructor
    · rintro ⟨-, h'⟩; exact h'
    · intro h'; exact ⟨Or.inl hr, h'⟩
  have e2 : (1 ≤ r ∧ 1 ≤ c ∧ (r - 1 < 16 ∨ (r - 1 = 16 ∧ c - 1 < 0)) ∧
        lit SW src (r - 1) (c - 1) = true) ↔
      (1 ≤ r ∧ 1 ≤ c ∧ lit SW src (r - 1) (c - 1) = true) := by
    constructor
    · rintro ⟨h0, h0', -, h'⟩; exact ⟨h0, h0', h'⟩
    · rintro ⟨h0, h0', h'⟩; exact ⟨h0, h0', by omega, h'⟩
  unfold pixAt refPixel
  simp only [e1, e2]

theorem byteBody_step (SW : Nat) (src : List Nat) (y x : Nat) (st : RasterState)
    (hsrc : 16 * SW ≤ src.length) (hy : y < 16) (hx : x < SW)
    (hp : st.src_p = y * SW + x) (hinv : RasterInv SW src y (8 * x) st.dest) :
    ∃ st1, byteBody ⟨src, SW, 9 * SW, 16⟩ y x st = some st1 ∧
      st1.src_p = y * SW + (x + 1) ∧ RasterInv SW src y (8 * (x + 1)) st1.dest := by
  have hmul : y * SW ≤ 15 * SW := Nat.mul_le_mul_right SW (by omega)
  have hidx : y * SW + x < src.length := by omega
  have hbyte : src[y * SW + x]? = some src[y * SW + x] := List.getElem?_eq_getElem hidx
  obtain ⟨dest1, hloop, hinv1⟩ :=
    forLoop_invariant (bitBody 16 y x src[y * SW + x])
      (fun bit dest => RasterInv SW src y (8 * x + bit) dest) 8 0 st.dest hinv
      (fun bit dest _ hlt hP =>
        bitBody_step SW src y x bit _ dest hy hx (by omega) hbyte hP)
  refine ⟨{ dest := dest1, src_p := st.src_p + 1 }, ?_, by simp only []; omega, ?_⟩
  · simp only [byteBody, hp, hbyte, hloop]
  · rw [show 8 * (x + 1) = 8 * x + (0 + 8) by omega]
    exact hinv1

theorem rowBody_step (SW : Nat) (src : List Nat) (y : Nat) (st : RasterState)
    (hsrc : 16 * SW ≤ src.length) (hy : y < 16)
    (hp : st.src_p = y * SW) (hinv : RasterInv SW src y 0 st.dest) :
    ∃ st1, rowBody ⟨src, SW, 9 * SW, 16⟩ y st = some st1 ∧
      st1.src_p = (y + 1) * SW ∧ RasterInv SW src (y + 1) 0 st1.dest := by
  obtain ⟨st1, hloop, hp1, hinv1⟩ :=
    forLoop_invariant (byteBody ⟨src, SW, 9 * SW, 16⟩ y)
      (fun x t => t.src_p = y * SW + x ∧ RasterInv SW src y (8 * x) t.dest) SW 0 st
      ⟨by rw [hp]; rfl, hinv⟩
      (fun x t _ hlt hP => byteBody_step SW src y x t hsrc hy (by omega) hP.1 hP.2)
  refine ⟨st1, hloop, by rw [hp1, Nat.succ_mul, Nat.zero_add], hinv1.1, ?_⟩
  intro c r hc hr
  rw [← pixAt_row_done]
  have h := hinv1.2 c r hc hr
  rw [Nat.zero_add] at h
  exact h

/-- The closed form of the rasterizer: for a glyph of `SW` source bytes per row
over at least `16 * SW` readable bytes, the loops end with the read position at
`16 * SW` and the pixel at column `c`, row `r` equal to `refPixel`. -/
theorem rasterize_closed_form (SW : Nat) (src : List Nat) (hsrc : 16 * SW ≤ src.length) :
    ∃ st, rasterize ⟨src, SW, 9 * SW, 16⟩ = some st ∧ st.src_p = 16 * SW ∧
      st.dest.length = 9 * SW * 16 ∧
      ∀ c r, c < 9 * SW → r < 16 → st.dest[c * 16 + r]? = some (refPixel SW src c r) := by
  obtain ⟨st, hloop, hp, hinv⟩ :=
    forLoop_invariant (rowBody ⟨src, SW, 9 * SW, 16⟩)
      (fun y t => t.src_p = y * SW ∧ RasterInv SW src y 0 t.dest) 16 0
      { dest := List.replicate (9 * SW * 16) 0, src_p := 0 }
      ⟨by simp, by simp, fun c r hc hr => by
        rw [pixAt_start, List.getElem?_replicate, if_pos (by omega)]⟩
      (fun y t _ hlt hP => rowBody_step SW src y t hsrc (by omega) hP.1 hP.2)
  refine ⟨st, hloop, hp, hinv.1, ?_⟩
  intro c r hc hr
  rw [hinv.2 c r hc hr, pixAt_end SW src c r hr]

theorem CreatePalettedPixels_closed_form (SW : Nat) (src : List Nat)
    (hsrc : 16 * SW ≤ src.length) :
    ∃ px, CreatePalettedPixels ⟨src, SW, 9 * SW, 16⟩ = some px ∧
      px.length = 9 * SW * 16 ∧
      ∀ c r, c < 9 * SW → r < 16 → px[c * 16 + r]? = some (refPixel SW src c r) := by
  obtain ⟨st, hst, -, hlen, hpix⟩ := rasterize_closed_form SW src hsrc
  exact ⟨st.dest, by rw [CreatePalettedPixels, hst]; rfl, hlen, hpix⟩

/-! ### The font assembly loop -/

theorem charBody_step (fresh : CharData) (font : FHexFont) (stored : List Int)
    (hinv : FontInv font stored) (N k : Nat) (Chars : List CharData)
    (h0 : 0 ≤ font.FirstChar) (hN : font.FirstChar + N ≤ 65536) (hk : k < N)
    (hlen : Chars.length = N)
    (hdone : ∀ j, j < k → Chars[j]? = some (charEntry fresh font (font.FirstChar + j)))
    (htodo : ∀ j, k ≤ j → j < N → Chars[j]? = some fresh) :
    ∃ Chars1, charBody font k Chars = some Chars1 ∧ Chars1.length = N ∧
      (∀ j, j < k + 1 → Chars1[j]? = some (charEntry fresh font (font.FirstChar + j))) ∧
      (∀ j, k + 1 ≤ j → j < N → Chars1[j]? = some fresh) := by
  have hguard : 0 ≤ font.FirstChar + (k : Int) ∧ font.FirstChar + (k : Int) < 65536 ∧
      k < Chars.length := ⟨by omega, by omega, by omega⟩
  have hset : ∀ (e : CharData), e = charEntry fresh font (font.FirstChar + k) →
      (Chars.set k e).length = N ∧
      (∀ j, j < k + 1 → (Chars.set k e)[j]? =
        some (charEntry fresh font (font.FirstChar + j))) ∧
      (∀ j, k + 1 ≤ j → j < N → (Chars.set k e)[j]? = some fresh) := by
    intro e he
    refine ⟨by rw [List.length_set, hlen], ?_, ?_⟩
    · intro j hj
      by_cases hjk : j = k
      · rw [hjk, List.getElem?_set_self (by omega), he]
      · rw [List.getElem?_set_ne (by omega)]
        exact hdone j (by omega)
    · intro j hj1 hj2
      rw [List.getElem?_set_ne (by omega)]
      exact htodo j (by omega) hj2
  unfold charBody
  simp only [hguard, and_self, if_true]
  by_cases hpos : font.glyphmap (font.FirstChar + (k : Int)).toNat > 0
  · rw [if_pos hpos]
    obtain ⟨n, hn, -⟩ := hinv.run_inside (font.FirstChar + (k : Int)).toNat (by omega)
    rw [hn]
    refine ⟨_, rfl, hset _ ?_⟩
    simp only [charEntry, if_pos hpos, List.getD_eq_getElem?_getD, hn, Option.getD_some]
  · rw [if_neg hpos]
    refine ⟨_, rfl, hset _ ?_⟩
    have hk' := htodo k (Nat.le_refl _) hk
    simp only [charEntry, if_neg hpos, List.getD_eq_getElem?_getD, hk', Option.getD_some]

/-- Font assembly on a state the parser can reach: the loop ends normally and the
entry of every codepoint of `[FirstChar, LastChar]` is `charEntry`. -/
theorem LoadTranslations_entries (fresh : CharData) (font : FHexFont) (stored : List Int)
    (hinv : FontInv font stored) :
    ∃ Chars, LoadTranslations fresh font = some Chars ∧ Chars.length = charsSize font ∧
      ∀ k : Nat, font.FirstChar + k ≤ font.LastChar →
        Chars[k]? = some (charEntry fresh font (font.FirstChar + k)) := by
  by_cases hst : stored = []
  · obtain ⟨h1, h2⟩ := hinv.none_stored hst
    have hi1 : INT_MAX = 2147483647 := rfl
    have hi2 : INT_MIN = -2147483648 := rfl
    have hcount : (font.LastChar - font.FirstChar + 1).toNat = 0 := by omega
    refine ⟨List.replicate (charsSize font) fresh, ?_, by simp, ?_⟩
    · rw [LoadTranslations, hcount]; rfl
    · intro k hk; omega
  · obtain ⟨h1, h2⟩ := hinv.attained hst
    obtain ⟨hf0, -, -, hfl⟩ := hinv.in_range _ h1
    obtain ⟨-, hl1, -, -⟩ := hinv.in_range _ h2
    obtain ⟨N, hN⟩ : ∃ N : Nat, (N : Int) = font.LastChar - font.FirstChar + 1 :=
      ⟨(font.LastChar - font.FirstChar + 1).toNat, by omega⟩
    have hcount : (font.LastChar - font.FirstChar + 1).toNat = N := by omega
    have hsize : charsSize font = N := by
      unfold charsSize
      rw [← hN, Int.emod_eq_of_lt (by omega) (by omega)]
      simp
    obtain ⟨Chars, hloop, hlen, hdone, -⟩ :=
      forLoop_invariant (charBody font)
        (fun k Chars => Chars.length = N ∧
          (∀ j, j < k → Chars[j]? = some (charEntry fresh font (font.FirstChar + j))) ∧
          (∀ j, k ≤ j → j < N → Chars[j]? = some fresh)) N 0
        (List.replicate N fresh)
        ⟨by simp, fun j hj => by omega, fun j _ hj => by
          rw [List.getElem?_replicate, if_pos hj]⟩
        (fun k Chars _ hk hP =>
          charBody_step fresh font stored hinv N k Chars hf0 (by omega) (by omega)
            hP.1 hP.2.1 hP.2.2)
    refine ⟨Chars, ?_, by rw [hlen, hsize], ?_⟩
    · rw [LoadTranslations, hcount, hsize]; exact hloop
    · intro k hk
      exact hdone k (by omega)

theorem charsSize_of_stored (font : FHexFont) (stored : List Int) (hinv : FontInv font stored)
    (hle : font.FirstChar ≤ font.LastChar) :
    (charsSize font : Int) = font.LastChar - font.FirstChar + 1 := by
  have hst := hinv.first_le_last_iff.mp hle
  obtain ⟨h1, h2⟩ := hinv.attained hst
  obtain ⟨hf0, -, -, -⟩ := hinv.in_range _ h1
  obtain ⟨-, hl1, -, -⟩ := hinv.in_range _ h2
  unfold charsSize
  rw [Int.emod_eq_of_lt (by omega) (by omega)]
  omega

/-! ### `strtoull` on tokens with a character that is not a hex digit -/

theorem strtoull16_plain (s : List Char)
    (hhead : ∀ c, s.head? = some c → isspace c = false ∧ c ≠ '-' ∧ c ≠ '+')
    (h0x : strip0x s = s) :
    strtoull16 s = if ULLONG_MAX < accumHex s 0 then ULLONG_MAX else accumHex s 0 := by
  have hdrop : s.dropWhile isspace = s := by
    cases s with
    | nil => rfl
    | cons c t =>
      have := (hhead c rfl).1
      simp [List.dropWhile, this]
  have hsign : stripSign s = (false, s) := by
    cases s with
    | nil => rfl
    | cons c t =>
      obtain ⟨-, hm, hp⟩ := hhead c rfl
      unfold stripSign
      split
      · rename_i h; simp at h; exact absurd h.1 hm
      · rename_i h; simp at h; exact absurd h.1 hp
      · rfl
  simp only [strtoull16, hdrop, hsign, h0x]
  simp

theorem hex_head_plain {c : Char} {d : Nat} (h : hexDigit? c = some d) :
    isspace c = false ∧ c ≠ '-' ∧ c ≠ '+' := by
  have b := hexDigit?_toNat h
  refine ⟨by simp [isspace]; omega, ?_, ?_⟩
  · rintro rfl; revert b; decide
  · rintro rfl; revert b; decide

theorem strip0x_of_second (s : List Char)
    (h : ∀ x, s[1]? = some x → x ≠ 'x' ∧ x ≠ 'X') : strip0x s = s := by
  unfold strip0x
  split
  · rename_i x hd t
    have hx := h x rfl
    rw [if_neg]
    rintro ⟨h1 | h1, -⟩
    · exact hx.1 h1
    · exact hx.2 h1
  · rfl

theorem accumHex_stop (ds : List Char) (g : Char) (rest : List Char)
    (hds : allHex ds) (hg : hexDigit? g = none) :
    ∀ acc, accumHex (ds ++ g :: rest) acc = accumHex ds acc := by
  induction ds with
  | nil =>
    intro acc
    simp [accumHex, hg]
  | cons d t ih =>
    intro acc
    obtain ⟨v, hv⟩ := Option.isSome_iff_exists.mp (hds d (List.mem_cons_self _ _))
    simp only [List.cons_append, accumHex, hv]
    exact ih (fun c hc => hds c (List.mem_cons_of_mem _ hc)) _

theorem hex_ne_x {c : Char} {d : Nat} (h : hexDigit? c = some d) : c ≠ 'x' ∧ c ≠ 'X' := by
  constructor
  · rintro rfl
    have : hexDigit? 'x' = none := by decide
    rw [this] at h; cases h
  · rintro rfl
    have : hexDigit? 'X' = none := by decide
    rw [this] at h; cases h

theorem strip0x_pair (c1 c2 : Char) : strip0x [c1, c2] = [c1, c2] := by
  unfold strip0x
  split
  · rename_i h; simp at h
  · rfl

/-- A token of hex digits followed by a character that is neither a hex digit nor
`x` / `X` parses as the digits before that character. -/
theorem strtoull16_stops (ds : List Char) (g : Char) (rest : List Char)
    (hne : ds ≠ []) (hds : allHex ds) (hg : hexDigit? g = none)
    (hgx : g ≠ 'x' ∧ g ≠ 'X') :
    strtoull16 (ds ++ g :: rest) = strtoull16 ds := by
  obtain ⟨d, t, rfl⟩ := List.exists_cons_of_ne_nil hne
  obtain ⟨v, hv⟩ := Option.isSome_iff_exists.mp (hds d (List.mem_cons_self _ _))
  have hplain := hex_head_plain hv
  have hsecond : ∀ x, (d :: t)[1]? = some x → x ≠ 'x' ∧ x ≠ 'X' := by
    intro x hx
    cases t with
    | nil => simp at hx
    | cons e t2 =>
      simp at hx
      obtain ⟨w, hw⟩ := Option.isSome_iff_exists.mp (hds e (by simp))
      rw [← hx]
      exact hex_ne_x hw
  have hsecond2 : ∀ x, (d :: t ++ g :: rest)[1]? = some x → x ≠ 'x' ∧ x ≠ 'X' := by
    intro x hx
    cases t with
    | nil =>
      simp at hx
      rw [← hx]; exact hgx
    | cons e t2 =>
      simp at hx
      obtain ⟨w, hw⟩ := Option.isSome_iff_exists.mp (hds e (by simp))
      rw [← hx]
      exact hex_ne_x hw
  rw [strtoull16_plain (d :: t ++ g :: rest) (fun c hc => by
        simp at hc; rw [← hc]; exact hplain) (strip0x_of_second _ hsecond2),
    strtoull16_plain (d :: t) (fun c hc => by
        simp at hc; rw [← hc]; exact hplain) (strip0x_of_second _ hsecond),
    accumHex_stop (d :: t) g rest hds hg 0]

theorem strtoull16_hex_then_other {c1 c2 : Char} {d1 : Nat}
    (h1 : hexDigit? c1 = some d1) (h2 : hexDigit? c2 = none) :
    strtoull16 [c1, c2] = d1 := by
  have l1 := hexDigit?_lt h1
  rw [strtoull16_plain [c1, c2] (fun c hc => by
        simp at hc; rw [← hc]; exact hex_head_plain h1) (strip0x_pair c1 c2)]
  simp only [accumHex, h1, h2, ULLONG_MAX]
  rw [if_neg (by omega)]
  omega

theorem strtoull16_other_first {c1 c2 : Char} (h1 : hexDigit? c1 = none)
    (hsp : isspace c1 = false) (hm : c1 ≠ '-') (hp : c1 ≠ '+') :
    strtoull16 [c1, c2] = 0 := by
  rw [strtoull16_plain [c1, c2] (fun c hc => by
        simp at hc; rw [← hc]; exact ⟨hsp, hm, hp⟩) (strip0x_pair c1 c2)]
  simp [accumHex, h1]

theorem luminosity_ramp_value (i : Nat) (h : i ≠ 1) :
    luminosity i = 1 / 2 + ((i : ℚ) - 2) / 34 := by
  unfold luminosity
  rw [if_neg h]
  push_cast
  ring

/-! ### The arena across a stream -/

theorem parseLoop_append : ∀ (a b : List (List Char × List Char)) (font : FHexFont),
    parseLoop (tokensOf (a ++ b)) font =
      match parseLoop (tokensOf a) font with
      | .ok f => parseLoop (tokensOf b) f
      | .error e => .error e
  | [], b, font => rfl
  | p :: a, b, font => by
    simp only [List.cons_append, tokensOf, parseLoop, Compare, decide_True, if_true]
    cases hp : processPair font p.1 p.2 with
    | error e => rfl
    | ok f => exact parseLoop_append a b f

theorem parseLoop_single (p : List Char × List Char) (font : FHexFont) :
    parseLoop (tokensOf [p]) font = processPair font p.1 p.2 := by
  simp only [tokensOf, parseLoop, Compare, decide_True, if_true]
  cases processPair font p.1 p.2 <;> rfl

theorem runBytes_append (a b : List (List Char × List Char)) :
    runBytes (a ++ b) = runBytes a + runBytes b := by
  induction a with
  | nil => simp [runBytes]
  | cons p a ih =>
    show runLength p + runBytes (a ++ b) = runLength p + runBytes a + runBytes b
    rw [ih]; omega

theorem storedCodepoints_append (a b : List (List Char × List Char)) :
    storedCodepoints (a ++ b) = storedCodepoints a ++ storedCodepoints b := by
  induction a with
  | nil => simp [storedCodepoints]
  | cons p a ih =>
    show storedOf p.1 p.2 ++ storedCodepoints (a ++ b) =
      storedOf p.1 p.2 ++ storedCodepoints a ++ storedCodepoints b
    rw [ih, List.append_assoc]

/-- One pair, whatever its tokens: the step ends normally, the arena grows by the run
of the pair and keeps its earlier bytes, and map entries of other codepoints keep
their value. -/
theorem processPair_frame (font : FHexFont) (p : List Char × List Char) :
    ∃ font1, processPair font p.1 p.2 = .ok font1 ∧
      font1.glyphdata.length = font.glyphdata.length + runLength p ∧
      (∀ j, j < font.glyphdata.length → font1.glyphdata[j]? = font.glyphdata[j]?) ∧
      (∀ c : Nat, (c : Int) ∉ storedOf p.1 p.2 → font1.glyphmap c = font.glyphmap c) := by
  by_cases hg : 0 ≤ codepointOf p.1 ∧ codepointOf p.1 < 65536 ∧ p.2 ≠ emptyGlyph
  · obtain ⟨font1, hok, hlen, hmap, -, -, hframe, -, -⟩ :=
      storeGlyph_any font (codepointOf p.1) p.2
    refine ⟨font1, by rw [processPair_stored font p.1 p.2 hg.1 hg.2.1 hg.2.2, hok],
      by rw [hlen, runLength, if_pos hg], hframe, ?_⟩
    intro c hc
    rw [storedOf, if_pos hg, List.mem_singleton] at hc
    rw [hmap]
    exact if_neg (fun h => hc (by omega))
  · exact ⟨font, processPair_skipped font p.1 p.2 (by tauto), by rw [runLength, if_neg hg]; rfl,
      fun _ _ => rfl, fun _ _ => rfl⟩

theorem parseLoop_frame : ∀ (pairs : List (List Char × List Char)) (font : FHexFont),
    ∃ font1, parseLoop (tokensOf pairs) font = .ok font1 ∧
      font1.glyphdata.length = font.glyphdata.length + runBytes pairs ∧
      (∀ j, j < font.glyphdata.length → font1.glyphdata[j]? = font.glyphdata[j]?) ∧
      (∀ c : Nat, (c : Int) ∉ storedCodepoints pairs → font1.glyphmap c = font.glyphmap c)
  | [], font => ⟨font, rfl, rfl, fun _ _ => rfl, fun _ _ => rfl⟩
  | p :: rest, font => by
    obtain ⟨f1, hp, hlen1, hframe1, hmap1⟩ := processPair_frame font p
    obtain ⟨f2, hr, hlen2, hframe2, hmap2⟩ := parseLoop_frame rest f1
    refine ⟨f2, ?_, ?_, ?_, ?_⟩
    · simp only [tokensOf, parseLoop, Compare, decide_True, if_true, hp]
      exact hr
    · rw [hlen2, hlen1, runBytes]; omega
    · intro j hj
      rw [hframe2 j (by omega), hframe1 j hj]
    · intro c hc
      rw [storedCodepoints, List.mem_append, not_or] at hc
      rw [hmap2 c hc.2, hmap1 c hc.1]

/-- A stored pair `p` after the pairs `pre`: the run of `p` starts at the arena
length reached after `pre` and the arena then ends right after the run. -/
theorem parseLoop_upto (pre : List (List Char × List Char)) (p : List Char × List Char)
    (font : FHexFont)
    (hlo : 0 ≤ codepointOf p.1) (hhi : codepointOf p.1 < 65536) (hskip : p.2 ≠ emptyGlyph) :
    ∃ f0 fp, parseLoop (tokensOf pre) font = .ok f0 ∧ processPair f0 p.1 p.2 = .ok fp ∧
      parseLoop (tokensOf (pre ++ [p])) font = .ok fp ∧
      fp.glyphmap (codepointOf p.1).toNat = font.glyphdata.length + runBytes pre ∧
      fp.glyphdata.length = font.glyphdata.length + runBytes pre + (p.2.length / 2 + 1) ∧
      (∀ j, j < f0.glyphdata.length → fp.glyphdata[j]? = f0.glyphdata[j]?) ∧
      (∀ c : Nat, c ≠ (codepointOf p.1).toNat → fp.glyphmap c = f0.glyphmap c) ∧
      fp.glyphdata[fp.glyphmap (codepointOf p.1).toNat]? = some (p.2.length / 2 % 256) ∧
      (∀ i, i < p.2.length / 2 →
        fp.glyphdata[fp.glyphmap (codepointOf p.1).toNat + 1 + i]? =
          some (strtoull16 [p.2.getD (2 * i) '0', p.2.getD (2 * i + 1) '0'] % 256)) := by
  obtain ⟨f0, h0, hlen0, -, -⟩ := parseLoop_frame pre font
  obtain ⟨fp, hok, hlen, hmap, -, -, hframe, hpre1, hrows⟩ :=
    storeGlyph_any f0 (codepointOf p.1) p.2
  have hpp : processPair f0 p.1 p.2 = .ok fp := by
    rw [processPair_stored f0 p.1 p.2 hlo hhi hskip, hok]
  have hm : fp.glyphmap (codepointOf p.1).toNat = f0.glyphdata.length := by
    rw [hmap]; exact if_pos rfl
  refine ⟨f0, fp, h0, hpp, ?_, by rw [hm, hlen0], by rw [hlen, hlen0], hframe, ?_,
    by rw [hm, hpre1], ?_⟩
  · rw [parseLoop_append, h0]
    simp only []
    rw [parseLoop_single, hpp]
  · intro c hc
    rw [hmap]
    exact if_neg hc
  · intro i hi
    rw [hm]
    exact hrows i hi

theorem parseLoop_stored : ∀ (pairs : List (List Char × List Char)) (font : FHexFont)
    (stored : List Int), FontInv font stored →
    ∃ font1, parseLoop (tokensOf pairs) font = .ok font1 ∧
      FontInv font1 (stored ++ storedCodepoints pairs)
  | [], font, stored, hinv => by
    refine ⟨font, rfl, ?_⟩
    simpa [storedCodepoints] using hinv
  | p :: rest, font, stored, hinv => by
    obtain ⟨font2, hpair, -⟩ := processPair_frame font p
    obtain ⟨font1, hok, hinv1⟩ := parseLoop_stored rest font2 (stored ++ storedOf p.1 p.2)
      (processPair_inv font font2 stored p.1 p.2 hinv hpair)
    refine ⟨font1, ?_, ?_⟩
    · simp only [tokensOf, parseLoop, Compare, decide_True, if_true, hpair]
      exact hok
    · simpa [storedCodepoints, List.append_assoc] using hinv1

/-! ### Stream errors -/

/-- The loop on any tokens from any state: it raises the script error when the
tokens have a faulty triple and ends normally otherwise. -/
theorem parseLoop_outcome : ∀ (tokens : List (List Char)) (font : FHexFont),
    (malformed tokens = true ∧ parseLoop tokens font = .error .scriptError) ∨
    (malformed tokens = false ∧ ∃ font1, parseLoop tokens font = .ok font1)
  | [], font => Or.inr ⟨rfl, font, rfl⟩
  | [_], _ => Or.inl ⟨rfl, rfl⟩
  | [_, _], _ => Or.inl ⟨rfl, rfl⟩
  | cp :: sep :: str :: rest, font => by
    by_cases hsep : sep = [':']
    · subst hsep
      obtain ⟨font2, hpair, -⟩ := processPair_frame font (cp, str)
      simp only [] at hpair
      have hm : malformed (cp :: [':'] :: str :: rest) = malformed rest := by
        simp [malformed]
      have hp : parseLoop (cp :: [':'] :: str :: rest) font = parseLoop rest font2 := by
        simp only [parseLoop, Compare, decide_True, if_true, hpair]
      rw [hm, hp]
      exact parseLoop_outcome rest font2
    · left
      constructor
      · simp [malformed, hsep]
      · simp [parseLoop, Compare, hsep]

/-- The stream `41 : F 42 : FF`: the pair with the odd bitstring takes the cells 1
(length byte 0) and the next run starts at offset 2. -/
theorem odd_bitstring_stream :
    ∃ font, ParseDefinition (tokensOf [pairOdd, pairB]) = .ok font ∧
      font.glyphdata = [0, 0, 1, 255] ∧ font.glyphmap 65 = 1 ∧ font.glyphmap 66 = 2 ∧
      font.FirstChar = 65 ∧ font.LastChar = 66 :=
  ⟨_, rfl, rfl, rfl, rfl, rfl, rfl⟩

/-! ### The indices the rasterizer writes and the bytes it reads -/

/-- The body of the `bit` loop on a buffer of `9 * SW * 16` bytes: it writes nothing
when the bit is clear, the lit pixel at index `(8 * x + bit) * 16 + y` when it is set,
and also the shadow at `(8 * x + bit + 1) * 16 + y + 1` when `y` is not the last
row. -/
theorem bitBody_writes (SW y x bit byte : Nat) (dest : List Nat)
    (hy : y < 16) (hx : x < SW) (hbit : bit < 8) (hlen : dest.length = 9 * SW * 16) :
    bitBody 16 y x byte bit dest = some
      (if byte.testBit (7 - bit) = true then
        (if y ≠ 15 then
          (dest.set ((8 * x + bit) * 16 + y) (y + 2)).set ((8 * x + bit + 1) * 16 + y + 1) 1
         else dest.set ((8 * x + bit) * 16 + y) (y + 2))
       else dest) := by
  have e1 : 8 * x * 16 + y + bit * 16 = (8 * x + bit) * 16 + y := by omega
  have e2 : 8 * x * 16 + y + (bit * 16 + 16 + 1) = (8 * x + bit + 1) * 16 + y + 1 := by omega
  unfold bitBody
  rw [e1, e2]
  by_cases hb : byte.testBit (7 - bit) = true
  · rw [if_pos ((mask_test byte bit hbit).mpr hb), if_pos hb]
    have hv : (y + 2) % 256 = y + 2 := by omega
    simp only [writePixel, hv, List.length_set]
    rw [if_pos (by omega)]
    have h15 : (16 : Nat) - 1 = 15 := rfl
    have h1 : 1 % 256 = 1 := rfl
    rw [h15, h1]
    by_cases hl : y = 15
    · subst hl
      rfl
    · have hne : y ≠ 15 := hl
      have hsh : (8 * x + bit + 1) * 16 + y + 1 <
          (dest.set ((8 * x + bit) * 16 + y) (y + 2)).length := by
        rw [List.length_set]; omega
      simp only [hne, ne_eq, not_false_eq_true, if_true, hsh]
  · rw [if_neg (fun h => hb ((mask_test byte bit hbit).mp h)), if_neg hb]

theorem lit_solid (SW r c : Nat) (hr : r < 16) (hc : c < 8 * SW) :
    lit SW (solidRows SW) r c = true := by
  have hmul : r * SW ≤ 15 * SW := Nat.mul_le_mul_right SW (by omega)
  have hidx : r * SW + c / 8 < 16 * SW := by omega
  unfold lit solidRows
  rw [List.getD_eq_getElem?_getD, List.getElem?_replicate, if_pos hidx]
  have h7 : 7 - c % 8 < 8 := by omega
  have : Nat.testBit 255 (7 - c % 8) = true := by
    have h255 : (255 : Nat) = 2 ^ 8 - 1 := by decide
    rw [h255, Nat.testBit_two_pow_sub_one]
    simpa using h7
  simp [hc, this]

theorem lit_take (SW : Nat) (src : List Nat) (r c : Nat) (hr : r < 16) :
    lit SW (src.take (16 * SW)) r c = lit SW src r c := by
  unfold lit
  by_cases hc : c < 8 * SW
  · have hmul : r * SW ≤ 15 * SW := Nat.mul_le_mul_right SW (by omega)
    have hidx : r * SW + c / 8 < 16 * SW := by omega
    rw [List.getD_eq_getElem?_getD, List.getD_eq_getElem?_getD,
      List.getElem?_take_of_lt hidx]
  · simp [hc]

theorem refPixel_take (SW : Nat) (src : List Nat) (c r : Nat) (hr : r < 16) :
    refPixel SW (src.take (16 * SW)) c r = refPixel SW src c r := by
  unfold refPixel
  rw [lit_take SW src r c hr, lit_take SW src (r - 1) (c - 1) (by omega)]

/-- The rendering depends only on the first `16 * SW` source bytes. -/
theorem CreatePalettedPixels_take (SW : Nat) (src : List Nat) (hsrc : 16 * SW ≤ src.length) :
    CreatePalettedPixels ⟨src.take (16 * SW), SW, 9 * SW, 16⟩ =
      CreatePalettedPixels ⟨src, SW, 9 * SW, 16⟩ := by
  obtain ⟨px1, h1, hlen1, hpix1⟩ := CreatePalettedPixels_closed_form SW (src.take (16 * SW))
    (by rw [List.length_take]; omega)
  obtain ⟨px2, h2, hlen2, hpix2⟩ := CreatePalettedPixels_closed_form SW src hsrc
  rw [h1, h2]
  congr 1
  apply List.ext_getElem?
  intro j
  by_cases hj : j < 9 * SW * 16
  · have a1 := hpix1 (j / 16) (j % 16) (by omega) (by omega)
    have a2 := hpix2 (j / 16) (j % 16) (by omega) (by omega)
    rw [show j / 16 * 16 + j % 16 = j by omega] at a1 a2
    rw [a1, a2, refPixel_take SW src _ _ (by omega)]
  · rw [List.getElem?_eq_none (by omega), List.getElem?_eq_none (by omega)]

/-! ### The claims -/

set_option maxRecDepth 100000

/-- C1: a pair whose codepoint is in 0..65535 and whose bitstring has even length,
only hex digits and is not the skip literal is stored: the map entry of the codepoint
is the arena length before the pair, the arena grows by `len/2 + 1` bytes, the byte
at `glyphmap[codepoint] + 1 + i` is `16 * hexval s[2i] + hexval s[2i+1]`, and the
earlier arena bytes are unchanged. -/
theorem C1_rows_stored (font : FHexFont) (cp s : List Char)
    (hlo : 0 ≤ codepointOf cp) (hhi : codepointOf cp < 65536)
    (heven : s.length % 2 = 0) (hhex : allHex s) (hskip : s ≠ emptyGlyph) :
    ∃ font1, processPair font cp s = .ok font1 ∧
      font1.glyphmap (codepointOf cp).toNat = font.glyphdata.length ∧
      font1.glyphdata.length = font.glyphdata.length + (s.length / 2 + 1) ∧
      (∀ i, i < s.length / 2 →
        font1.glyphdata[font1.glyphmap (codepointOf cp).toNat + 1 + i]? =
          some (16 * hexval (s.getD (2 * i) '0') + hexval (s.getD (2 * i + 1) '0'))) ∧
      (∀ j, j < font.glyphdata.length → font1.glyphdata[j]? = font.glyphdata[j]?) := by
  obtain ⟨font1, hok, hlen, hmap, -, -, hframe, -, hrows⟩ :=
    storeGlyph_even font (codepointOf cp) s heven
  have hm : font1.glyphmap (codepointOf cp).toNat = font.glyphdata.length := by
    rw [hmap]; simp
  refine ⟨font1, ?_, hm, hlen, ?_, hframe⟩
  · rw [processPair_stored font cp s hlo hhi hskip, hok]
  · intro i hi
    rw [hm, hrows i hi, decode_hex_pair s hhex i (by omega)]

theorem C1_rows_stored_witness :
    ∃ font1, processPair initialFont ['0', '0', '4', '1'] ['C', '3', '0', 'f'] = .ok font1 ∧
      font1.glyphmap (codepointOf ['0', '0', '4', '1']).toNat = initialFont.glyphdata.length ∧
      font1.glyphdata.length = initialFont.glyphdata.length + (['C', '3', '0', 'f'].length / 2 + 1) ∧
      (∀ i, i < ['C', '3', '0', 'f'].length / 2 →
        font1.glyphdata[font1.glyphmap (codepointOf ['0', '0', '4', '1']).toNat + 1 + i]? =
          some (16 * hexval (['C', '3', '0', 'f'].getD (2 * i) '0')
            + hexval (['C', '3', '0', 'f'].getD (2 * i + 1) '0'))) ∧
      (∀ j, j < initialFont.glyphdata.length → font1.glyphdata[j]? = initialFont.glyphdata[j]?) :=
  C1_rows_stored initialFont ['0', '0', '4', '1'] ['C', '3', '0', 'f']
    (by decide) (by decide) (by decide) (by decide) (by decide)

/-- C2 (as stated, refuted): for the valid pair with codepoint token `41` and the
bitstring of 512 characters `F`, the length prefix stored at `arena[glyphmap[0x41]]`
is 0 while `len(s)/2` is 256. -/
theorem C2_length_byte_counterexample :
    0 ≤ codepointOf ['4', '1'] ∧ codepointOf ['4', '1'] < 65536 ∧
    (List.replicate 512 'F').length % 2 = 0 ∧ allHex (List.replicate 512 'F') ∧
    List.replicate 512 'F' ≠ emptyGlyph ∧ (List.replicate 512 'F').length / 2 = 256 ∧
    ∃ font1, processPair initialFont ['4', '1'] (List.replicate 512 'F') = .ok font1 ∧
      font1.glyphdata[font1.glyphmap (codepointOf ['4', '1']).toNat]? = some 0 := by
  have hl : (List.replicate 512 'F').length = 512 := List.length_replicate 512 'F'
  have hne : List.replicate 512 'F' ≠ emptyGlyph := by
    intro h
    have h2 := congrArg List.length h
    rw [hl, emptyGlyph, List.length_replicate] at h2
    omega
  refine ⟨by decide, by decide, by rw [hl], ?_, hne, by rw [hl], ?_⟩
  · intro c hc
    rw [List.eq_of_mem_replicate hc]; decide
  · obtain ⟨font1, hok, -, hmap, -, -, -, hpre, -⟩ :=
      storeGlyph_even initialFont (codepointOf ['4', '1']) (List.replicate 512 'F')
        (by rw [hl])
    refine ⟨font1, ?_, ?_⟩
    · rw [processPair_stored _ _ _ (by decide) (by decide) hne, hok]
    · rw [hl] at hpre
      have hm : font1.glyphmap (codepointOf ['4', '1']).toNat = initialFont.glyphdata.length := by
        rw [hmap]; exact if_pos rfl
      rw [hm, hpre]

/-- C2 (amended): for every valid pair the byte at `arena[glyphmap[codepoint]]` is
`len(s)/2` reduced modulo 256, hence `len(s)/2` itself whenever `len(s) < 512`. -/
theorem C2_length_byte_mod_256 (font : FHexFont) (cp s : List Char)
    (hlo : 0 ≤ codepointOf cp) (hhi : codepointOf cp < 65536)
    (heven : s.length % 2 = 0) (_hhex : allHex s) (hskip : s ≠ emptyGlyph) :
    ∃ font1, processPair font cp s = .ok font1 ∧
      font1.glyphdata[font1.glyphmap (codepointOf cp).toNat]? = some (s.length / 2 % 256) ∧
      (s.length < 512 →
        font1.glyphdata[font1.glyphmap (codepointOf cp).toNat]? = some (s.length / 2)) := by
  obtain ⟨font1, hok, -, hmap, -, -, -, hpre, -⟩ :=
    storeGlyph_even font (codepointOf cp) s heven
  have hm : font1.glyphmap (codepointOf cp).toNat = font.glyphdata.length := by
    rw [hmap]; simp
  refine ⟨font1, ?_, ?_, ?_⟩
  · rw [processPair_stored font cp s hlo hhi hskip, hok]
  · rw [hm, hpre]
  · intro hlt
    rw [hm, hpre, Nat.mod_eq_of_lt (by omega)]

theorem C2_length_byte_mod_256_witness :
    ∃ font1, processPair initialFont ['4', '1'] ['C', '3', '0', 'f'] = .ok font1 ∧
      font1.glyphdata[font1.glyphmap (codepointOf ['4', '1']).toNat]? =
        some (['C', '3', '0', 'f'].length / 2 % 256) ∧
      (['C', '3', '0', 'f'].length < 512 →
        font1.glyphdata[font1.glyphmap (codepointOf ['4', '1']).toNat]? =
          some (['C', '3', '0', 'f'].length / 2)) :=
  C2_length_byte_mod_256 initialFont ['4', '1'] ['C', '3', '0', 'f']
    (by decide) (by decide) (by decide) (by decide) (by decide)

/-- C3 (as stated, refuted): from the initial state, the pair with codepoint token
`0041` and the all-zero bitstring of 34 characters is stored: `glyphmap[0x41]`
changes from 0 to 1 and `FirstChar`, `LastChar` become `0x41`. -/
theorem C3_zero34_counterexample :
    (List.replicate 34 '0').length = 34 ∧ (∀ c ∈ List.replicate 34 '0', c = '0') ∧
    initialFont.glyphmap 65 = 0 ∧ initialFont.FirstChar = INT_MAX ∧
    initialFont.LastChar = INT_MIN ∧
    ∃ font1, processPair initialFont ['0', '0', '4', '1'] (List.replicate 34 '0') = .ok font1 ∧
      font1.glyphmap 65 = 1 ∧ font1.FirstChar = 65 ∧ font1.LastChar = 65 := by
  have hl : (List.replicate 34 '0').length = 34 := List.length_replicate 34 '0'
  have hne : List.replicate 34 '0' ≠ emptyGlyph := by
    intro h
    have h2 := congrArg List.length h
    rw [hl, emptyGlyph, List.length_replicate] at h2
    omega
  refine ⟨hl, fun c hc => List.eq_of_mem_replicate hc, rfl, rfl, rfl, ?_⟩
  obtain ⟨font1, hok, -, hmap, hfirst, hlast, -, -, -⟩ :=
    storeGlyph_even initialFont (codepointOf ['0', '0', '4', '1']) (List.replicate 34 '0')
      (by rw [hl])
  refine ⟨font1, ?_, ?_, ?_, ?_⟩
  · rw [processPair_stored _ _ _ (by decide) (by decide) hne, hok]
  · rw [hmap]; decide
  · rw [hfirst]; decide
  · rw [hlast]; decide

/-- C3 (amended): for every codepoint token and every parser state, a pair whose
bitstring is the all-zero string of exactly 32 characters creates no map entry
(every `glyphmap` entry keeps its value) and leaves `FirstChar` and `LastChar`
unchanged. -/
theorem C3_zero32_skipped (font : FHexFont) (cp : List Char) :
    ∃ font1, processPair font cp (List.replicate 32 '0') = .ok font1 ∧
      font1.glyphmap (codepointOf cp).toNat = font.glyphmap (codepointOf cp).toNat ∧
      (∀ c, font1.glyphmap c = font.glyphmap c) ∧
      font1.FirstChar = font.FirstChar ∧ font1.LastChar = font.LastChar :=
  ⟨font, processPair_skipped font cp _ (Or.inr rfl), rfl, fun _ => rfl, rfl, rfl⟩

/-- C4: for every codepoint token and every parser state, a pair whose bitstring is
the all-zero string of 32 characters leaves the whole state unchanged (arena, map,
`FirstChar`, `LastChar`); and font assembly on a parsed font ends normally and gives
every codepoint of `[FirstChar, LastChar]` that is absent from the map the advance 9
and no bitmap. -/
theorem C4_zero32_state_unchanged (fresh : CharData) (tokens : List (List Char))
    (font : FHexFont) (hfresh : fresh.TranslatedPic = none)
    (hparse : ParseDefinition tokens = .ok font) :
    (∀ (st : FHexFont) (cp : List Char),
      processPair st cp (List.replicate 32 '0') = .ok st) ∧
    ∃ Chars, LoadTranslations fresh font = some Chars ∧
      ∀ i : Int, font.FirstChar ≤ i → i ≤ font.LastChar → font.glyphmap i.toNat = 0 →
        Chars[(i - font.FirstChar).toNat]? = some { TranslatedPic := none, XMove := 9 } := by
  refine ⟨fun st cp => processPair_skipped st cp _ (Or.inr rfl), ?_⟩
  obtain ⟨stored, hinv⟩ := parseLoop_inv tokens initialFont font [] initialFont_inv hparse
  obtain ⟨Chars, hload, -, hent⟩ := LoadTranslations_entries fresh font stored hinv
  refine ⟨Chars, hload, ?_⟩
  intro i h1 h2 h0
  have hk : font.FirstChar + ((i - font.FirstChar).toNat : Int) = i := by omega
  have := hent (i - font.FirstChar).toNat (by omega)
  rw [hk] at this
  rw [this, charEntry, if_neg (by omega), hfresh]
  rfl

theorem C4_zero32_state_unchanged_witness :
    (⟨none, 0⟩ : CharData).TranslatedPic = none ∧
    ParseDefinition exampleTokens = .ok exampleFont ∧
    ((∀ (st : FHexFont) (cp : List Char),
      processPair st cp (List.replicate 32 '0') = .ok st) ∧
    ∃ Chars, LoadTranslations ⟨none, 0⟩ exampleFont = some Chars ∧
      ∀ i : Int, exampleFont.FirstChar ≤ i → i ≤ exampleFont.LastChar →
        exampleFont.glyphmap i.toNat = 0 →
        Chars[(i - exampleFont.FirstChar).toNat]? =
          some { TranslatedPic := none, XMove := 9 }) :=
  ⟨rfl, rfl, C4_zero32_state_unchanged ⟨none, 0⟩ exampleTokens exampleFont rfl rfl⟩

/-- C5 (the code at the failing input): the codepoint token `100000041` has the
unsigned hexadecimal value 4294967361, which is at least 65536, yet `(int)` turns
it into 65 and the pair is stored: the arena grows from `[0]` to `[0, 1, 255]`,
`glyphmap[0x41]` becomes 1 and `FirstChar`, `LastChar` become 65. The token `10000`
is discarded and the token `FFFF` is stored under 65535. -/
theorem C5_wide_codepoint_aliases :
    strtoull16 ['1', '0', '0', '0', '0', '0', '0', '4', '1'] = 4294967361 ∧
    codepointOf ['1', '0', '0', '0', '0', '0', '0', '4', '1'] = 65 ∧
    (∃ font1, processPair initialFont ['1', '0', '0', '0', '0', '0', '0', '4', '1'] ['F', 'F']
        = .ok font1 ∧
      font1.glyphdata = [0, 1, 255] ∧ font1.glyphmap 65 = 1 ∧
      font1.FirstChar = 65 ∧ font1.LastChar = 65) ∧
    (∀ (font : FHexFont) (s : List Char),
      processPair font ['1', '0', '0', '0', '0'] s = .ok font) ∧
    (∃ font1, processPair initialFont ['F', 'F', 'F', 'F'] ['F', 'F'] = .ok font1 ∧
      font1.glyphdata = [0, 1, 255] ∧ font1.glyphmap 65535 = 1 ∧
      font1.FirstChar = 65535 ∧ font1.LastChar = 65535) := by
  refine ⟨by decide, by decide, ⟨_, rfl, rfl, rfl, rfl, rfl⟩, ?_, ⟨_, rfl, rfl, rfl, rfl, rfl⟩⟩
  intro font s
  exact processPair_skipped font _ s (Or.inl (by decide))

/-- C6: after a well-formed token stream (pairs with their separator and an
even-length bitstring) `ParseDefinition` ends normally; a codepoint has a non-zero
`glyphmap` entry exactly when it was stored; `FirstChar` and `LastChar` are stored
codepoints bounding all stored codepoints (the minimum and the maximum), and are
`INT_MAX` and `INT_MIN` when none was stored; `FirstChar <= LastChar` exactly when
one was stored; every codepoint with a non-zero entry lies in
`[FirstChar, LastChar]`. -/
theorem C6_first_last_are_min_max (pairs : List (List Char × List Char))
    (hwf : ∀ p ∈ pairs, p.2.length % 2 = 0) :
    ∃ font, ParseDefinition (tokensOf pairs) = .ok font ∧
      (∀ c : Nat, font.glyphmap c ≠ 0 ↔ (c : Int) ∈ storedCodepoints pairs) ∧
      (storedCodepoints pairs = [] → font.FirstChar = INT_MAX ∧ font.LastChar = INT_MIN) ∧
      (storedCodepoints pairs ≠ [] →
        font.FirstChar ∈ storedCodepoints pairs ∧ font.LastChar ∈ storedCodepoints pairs) ∧
      (∀ c ∈ storedCodepoints pairs, font.FirstChar ≤ c ∧ c ≤ font.LastChar) ∧
      (font.FirstChar ≤ font.LastChar ↔ storedCodepoints pairs ≠ []) ∧
      (font.FirstChar ≤ font.LastChar ↔ ∃ c : Nat, font.glyphmap c ≠ 0) ∧
      (∀ c : Nat, font.glyphmap c ≠ 0 →
        font.FirstChar ≤ (c : Int) ∧ (c : Int) ≤ font.LastChar) := by
  obtain ⟨font, hok, hinv⟩ := parseLoop_tokensOf pairs initialFont [] hwf initialFont_inv
  rw [List.nil_append] at hinv
  refine ⟨font, hok, hinv.map_iff, hinv.none_stored, hinv.attained, ?_,
    hinv.first_le_last_iff, ?_, ?_⟩
  · intro c hc
    exact (hinv.in_range c hc).2.2
  · rw [hinv.first_le_last_iff]
    constructor
    · intro hst
      obtain ⟨c, hc⟩ := List.exists_mem_of_ne_nil _ hst
      obtain ⟨h0, -⟩ := hinv.in_range c hc
      refine ⟨c.toNat, (hinv.map_iff _).mpr ?_⟩
      rwa [Int.toNat_of_nonneg h0]
    · rintro ⟨c, hc⟩ hst
      have := (hinv.map_iff c).mp hc
      rw [hst] at this
      simp at this
  · intro c hc
    exact (hinv.in_range _ ((hinv.map_iff c).mp hc)).2.2

theorem C6_first_last_are_min_max_witness :
    (∀ p ∈ examplePairs, p.2.length % 2 = 0) ∧
    ∃ font, ParseDefinition (tokensOf examplePairs) = .ok font ∧
      (∀ c : Nat, font.glyphmap c ≠ 0 ↔ (c : Int) ∈ storedCodepoints examplePairs) ∧
      (storedCodepoints examplePairs = [] →
        font.FirstChar = INT_MAX ∧ font.LastChar = INT_MIN) ∧
      (storedCodepoints examplePairs ≠ [] →
        font.FirstChar ∈ storedCodepoints examplePairs ∧
        font.LastChar ∈ storedCodepoints examplePairs) ∧
      (∀ c ∈ storedCodepoints examplePairs, font.FirstChar ≤ c ∧ c ≤ font.LastChar) ∧
      (font.FirstChar ≤ font.LastChar ↔ storedCodepoints examplePairs ≠ []) ∧
      (font.FirstChar ≤ font.LastChar ↔ ∃ c : Nat, font.glyphmap c ≠ 0) ∧
      (∀ c : Nat, font.glyphmap c ≠ 0 →
        font.FirstChar ≤ (c : Int) ∧ (c : Int) ≤ font.LastChar) :=
  ⟨by decide, C6_first_last_are_min_max examplePairs (by decide)⟩

/-- C7: for every `SourceWidth >= 1` and every source run of `16 * SourceWidth`
bytes, with `Width = 9 * SourceWidth` and `Height = 16`, `CreatePalettedPixels`
returns a buffer of `Width * Height` bytes in which the pixel of column `c`, row `r`,
at index `c * 16 + r`, is `r + 2` if the source bit `lit r c` is set, otherwise 1 if
`r >= 1`, `c >= 1` and `lit (r-1) (c-1)`, otherwise 0; so a lit pixel always holds
`r + 2`. -/
theorem C7_render_closed_form (SW : Nat) (src : List Nat) (_hSW : 1 ≤ SW)
    (hsrc : src.length = 16 * SW) :
    ∃ px, CreatePalettedPixels ⟨src, SW, 9 * SW, 16⟩ = some px ∧
      px.length = 9 * SW * 16 ∧
      (∀ c r, c < 9 * SW → r < 16 →
        px[c * 16 + r]? = some
          (if lit SW src r c = true then r + 2
           else if 1 ≤ r ∧ 1 ≤ c ∧ lit SW src (r - 1) (c - 1) = true then 1
           else 0)) ∧
      (∀ c r, c < 9 * SW → r < 16 → lit SW src r c = true →
        px[c * 16 + r]? = some (r + 2)) := by
  obtain ⟨px, hpx, hlen, hpix⟩ := CreatePalettedPixels_closed_form SW src (by omega)
  refine ⟨px, hpx, hlen, fun c r hc hr => hpix c r hc hr, ?_⟩
  intro c r hc hr hl
  rw [hpix c r hc hr, refPixel, if_pos hl]

theorem C7_render_closed_form_witness :
    1 ≤ 1 ∧ exampleRows.length = 16 * 1 ∧
    ∃ px, CreatePalettedPixels ⟨exampleRows, 1, 9 * 1, 16⟩ = some px ∧
      px.length = 9 * 1 * 16 ∧
      (∀ c r, c < 9 * 1 → r < 16 →
        px[c * 16 + r]? = some
          (if lit 1 exampleRows r c = true then r + 2
           else if 1 ≤ r ∧ 1 ≤ c ∧ lit 1 exampleRows (r - 1) (c - 1) = true then 1
           else 0)) ∧
      (∀ c r, c < 9 * 1 → r < 16 → lit 1 exampleRows r c = true →
        px[c * 16 + r]? = some (r + 2)) :=
  ⟨by decide, by decide, C7_render_closed_form 1 exampleRows (by decide) (by decide)⟩

/-- C8 (as stated, refuted): in the glyph over the rows `80 40 00 ..` the pixel at
row 0, column 0 is lit and `0 < 15`, the position row 1, column 1 (index 17) lies
inside the 144-byte buffer, yet it holds 3, not the shadow index 1. -/
theorem C8_shadow_counterexample :
    lit 1 diagonalRows 0 0 = true ∧ 0 < 15 ∧
    ∃ px, CreatePalettedPixels ⟨diagonalRows, 1, 9, 16⟩ = some px ∧
      (0 + 1) * 16 + (0 + 1) < px.length ∧ px[(0 + 1) * 16 + (0 + 1)]? = some 3 := by
  obtain ⟨px, hpx, hlen, hpix⟩ := CreatePalettedPixels_closed_form 1 diagonalRows (by decide)
  refine ⟨by decide, by decide, px, hpx, by omega, ?_⟩
  rw [hpix 1 1 (by decide) (by decide)]
  decide

/-- C8 (amended): whenever the source bit at row `y`, column `c` is set and
`y < 15`, the position row `y+1`, column `c+1` lies inside the returned buffer and
holds the shadow index 1, unless the source bit at row `y+1`, column `c+1` is set
too, in which case it holds the lit index `y + 3`. -/
theorem C8_shadow_unless_lit (SW : Nat) (src : List Nat) (y c : Nat)
    (hsrc : src.length = 16 * SW) (hlit : lit SW src y c = true) (hy : y < 15) :
    ∃ px, CreatePalettedPixels ⟨src, SW, 9 * SW, 16⟩ = some px ∧
      (c + 1) * 16 + (y + 1) < px.length ∧
      px[(c + 1) * 16 + (y + 1)]? =
        some (if lit SW src (y + 1) (c + 1) = true then y + 3 else 1) := by
  obtain ⟨px, hpx, hlen, hpix⟩ := CreatePalettedPixels_closed_form SW src (by omega)
  have hc := lit_lt hlit
  refine ⟨px, hpx, by omega, ?_⟩
  rw [hpix (c + 1) (y + 1) (by omega) (by omega), refPixel]
  by_cases h : lit SW src (y + 1) (c + 1) = true
  · rw [if_pos h, if_pos h]
  · rw [if_neg h, if_neg h, if_pos ⟨by omega, by omega, by simpa using hlit⟩]

theorem C8_shadow_unless_lit_witness :
    exampleRows.length = 16 * 1 ∧ lit 1 exampleRows 0 0 = true ∧ 0 < 15 ∧
    ∃ px, CreatePalettedPixels ⟨exampleRows, 1, 9 * 1, 16⟩ = some px ∧
      (0 + 1) * 16 + (0 + 1) < px.length ∧
      px[(0 + 1) * 16 + (0 + 1)]? =
        some (if lit 1 exampleRows (0 + 1) (0 + 1) = true then 0 + 3 else 1) :=
  ⟨by decide, by decide, by decide,
    C8_shadow_unless_lit 1 exampleRows 0 0 (by decide) (by decide) (by decide)⟩

/-- C9: for every rendered glyph (`Height = 16`, `Width = 9 * SourceWidth`, any
`SourceWidth` and source bytes), every byte of the returned buffer is 0, 1 or in
`[2, 17]`, and a value `v >= 2` at index `j` means that `j` is in row `v - 2`. -/
theorem C9_pixel_values (SW : Nat) (src : List Nat) (hsrc : src.length = 16 * SW) :
    ∃ px, CreatePalettedPixels ⟨src, SW, 9 * SW, 16⟩ = some px ∧
      ∀ j, j < px.length → ∃ v, px[j]? = some v ∧
        (v = 0 ∨ v = 1 ∨ (2 ≤ v ∧ v ≤ 17 ∧ j % 16 = v - 2)) := by
  obtain ⟨px, hpx, hlen, hpix⟩ := CreatePalettedPixels_closed_form SW src (by omega)
  refine ⟨px, hpx, ?_⟩
  intro j hj
  have h := hpix (j / 16) (j % 16) (by omega) (by omega)
  rw [show j / 16 * 16 + j % 16 = j by omega] at h
  refine ⟨_, h, ?_⟩
  unfold refPixel
  split_ifs
  · right; right; omega
  · right; left; rfl
  · left; rfl

theorem C9_pixel_values_witness :
    exampleRows.length = 16 * 1 ∧
    ∃ px, CreatePalettedPixels ⟨exampleRows, 1, 9 * 1, 16⟩ = some px ∧
      ∀ j, j < px.length → ∃ v, px[j]? = some v ∧
        (v = 0 ∨ v = 1 ∨ (2 ≤ v ∧ v ≤ 17 ∧ j % 16 = v - 2)) :=
  ⟨by decide, C9_pixel_values 1 exampleRows (by decide)⟩

theorem exampleA_rendered :
    CreatePalettedPixels ⟨exampleRows, 1, 9, 16⟩ = some examplePixels := by
  rfl

/-- C10 (as stated, refuted): parsing `0041 : C3C3000000000000000000000000C3C3`
stores the 16 row bytes at offset 1, and in the rendering of that run the pixel at
row 2, column 1 (index `1 * 16 + 2`), which is in the middle rows 2..13, holds the
shadow index 1, not background 0. -/
theorem C10_row2_counterexample :
    (∃ font, ParseDefinition exampleA = .ok font ∧ font.glyphmap 65 = 1 ∧
      font.glyphdata.drop (font.glyphmap 65 + 1) = exampleRows) ∧
    ∃ px, CreatePalettedPixels ⟨exampleRows, 1, 9, 16⟩ = some px ∧
      2 ≤ 2 ∧ 2 ≤ 13 ∧ px[1 * 16 + 2]? = some 1 :=
  ⟨⟨_, rfl, rfl, rfl⟩, examplePixels, exampleA_rendered, by decide, by decide, by decide⟩

/-- C10 (amended): parsing the single pair `0041 : C3C3000000000000000000000000C3C3`
stores a 16-byte run for codepoint 0x41 (length byte 16, `sourceWidth = 1`); font
assembly creates one glyph over it with advance 9; rendering it gives a 9 by 16
buffer of 144 bytes in which rows 0, 1, 14 and 15 hold `row + 2` at columns 0, 1, 6
and 7 and at most the shadow index 1 elsewhere, row 2 holds the shadow index 1 at
columns 1, 2, 7 and 8 and 0 elsewhere, and every pixel of rows 3 through 13 is 0. -/
theorem C10_worked_example :
    ∃ font, ParseDefinition exampleA = .ok font ∧
      font.glyphdata = 0 :: 16 :: exampleRows ∧ font.glyphmap 65 = 1 ∧
      font.FirstChar = 65 ∧ font.LastChar = 65 ∧
      (∀ fresh, LoadTranslations fresh font =
        some [{ TranslatedPic := some ⟨exampleRows, 1, 9, 16⟩, XMove := 9 }]) ∧
      CreatePalettedPixels ⟨exampleRows, 1, 9, 16⟩ = some examplePixels ∧
      examplePixels.length = 9 * 16 ∧
      (∀ r ∈ [0, 1, 14, 15], ∀ c ∈ [0, 1, 6, 7], examplePixels[c * 16 + r]? = some (r + 2)) ∧
      (∀ r ∈ [0, 1, 14, 15], ∀ c ∈ [2, 3, 4, 5, 8],
        examplePixels[c * 16 + r]? = some 0 ∨ examplePixels[c * 16 + r]? = some 1) ∧
      (∀ c, c < 9 → examplePixels[c * 16 + 2]? = some (if c ∈ [1, 2, 7, 8] then 1 else 0)) ∧
      (∀ r, r < 14 → 3 ≤ r → ∀ c, c < 9 → examplePixels[c * 16 + r]? = some 0) :=
  ⟨_, rfl, rfl, rfl, rfl, rfl, fun _ => rfl, exampleA_rendered, by decide, by decide,
    by decide, by decide, by decide⟩

/-- C11: in any stream of pairs, a stored pair `p` that follows the pairs `pre`
gets the offset `1 + sum of (len/2 + 1)` over the stored
pairs of `pre`; a pair `q` stored later gets an offset beyond the last byte
`offset + len(s)/2` of the run of `p`, so offsets increase strictly and the byte
ranges of the two runs are disjoint; and every arena byte present once `p` is
stored is the same at the end of the stream. -/
theorem C11_offsets_increase (pre mid post : List (List Char × List Char))
    (p q : List Char × List Char)
    (hp : 0 ≤ codepointOf p.1 ∧ codepointOf p.1 < 65536 ∧ p.2 ≠ emptyGlyph)
    (hq : 0 ≤ codepointOf q.1 ∧ codepointOf q.1 < 65536 ∧ q.2 ≠ emptyGlyph) :
    ∃ fp fq fN,
      ParseDefinition (tokensOf (pre ++ [p])) = .ok fp ∧
      ParseDefinition (tokensOf ((pre ++ [p]) ++ (mid ++ [q]))) = .ok fq ∧
      ParseDefinition (tokensOf ((pre ++ [p]) ++ (mid ++ [q]) ++ post)) = .ok fN ∧
      fp.glyphmap (codepointOf p.1).toNat = 1 + runBytes pre ∧
      fq.glyphmap (codepointOf q.1).toNat = 1 + runBytes ((pre ++ [p]) ++ mid) ∧
      fp.glyphmap (codepointOf p.1).toNat + p.2.length / 2 <
        fq.glyphmap (codepointOf q.1).toNat ∧
      fp.glyphdata.length = fp.glyphmap (codepointOf p.1).toNat + p.2.length / 2 + 1 ∧
      fq.glyphdata.length = fq.glyphmap (codepointOf q.1).toNat + q.2.length / 2 + 1 ∧
      (∀ j, j < fp.glyphdata.length → fq.glyphdata[j]? = fp.glyphdata[j]?) ∧
      (∀ j, j < fp.glyphdata.length → fN.glyphdata[j]? = fp.glyphdata[j]?) ∧
      (∀ j, j < fq.glyphdata.length → fN.glyphdata[j]? = fq.glyphdata[j]?) := by
  obtain ⟨f0, fp, -, -, hfp, hoffp, hlenp, -, -, -, -⟩ :=
    parseLoop_upto pre p initialFont hp.1 hp.2.1 hp.2.2
  obtain ⟨fm, fq, hfm, -, hfq, hoffq, hlenq, hframeq, -, -, -⟩ :=
    parseLoop_upto mid q fp hq.1 hq.2.1 hq.2.2
  obtain ⟨fN, hfN, -, hframeN, -⟩ := parseLoop_frame post fq
  have hinit : initialFont.glyphdata.length = 1 := rfl
  rw [hinit] at hoffp hlenp
  have hfm' : ∃ g, parseLoop (tokensOf mid) fp = .ok g ∧
      g.glyphdata.length = fp.glyphdata.length + runBytes mid ∧
      ∀ j, j < fp.glyphdata.length → g.glyphdata[j]? = fp.glyphdata[j]? :=
    let ⟨g, h1, h2, h3, _⟩ := parseLoop_frame mid fp
    ⟨g, h1, h2, h3⟩
  obtain ⟨g, hg1, hg2, hg3⟩ := hfm'
  rw [hfm] at hg1
  cases hg1
  have hq_all : ParseDefinition (tokensOf ((pre ++ [p]) ++ (mid ++ [q]))) = .ok fq := by
    rw [ParseDefinition, parseLoop_append, hfp]
    exact hfq
  have hN_all : ParseDefinition (tokensOf ((pre ++ [p]) ++ (mid ++ [q]) ++ post)) = .ok fN := by
    rw [ParseDefinition, parseLoop_append]
    rw [ParseDefinition] at hq_all
    rw [hq_all]
    exact hfN
  refine ⟨fp, fq, fN, hfp, hq_all, hN_all, hoffp, ?_, ?_, ?_, ?_, ?_, ?_, hframeN⟩
  · rw [hoffq, hlenp, runBytes_append, runBytes_append]
    simp only [runBytes, runLength, if_pos hp]
    omega
  · rw [hoffq, hoffp]; omega
  · rw [hlenp, hoffp]; omega
  · rw [hlenq, hoffq]; omega
  · intro j hj
    rw [hframeq j (by omega), hg3 j hj]
  · intro j hj
    rw [hframeN j (by omega), hframeq j (by omega), hg3 j hj]

theorem C11_offsets_increase_witness :
    (0 ≤ codepointOf pairOdd.1 ∧ codepointOf pairOdd.1 < 65536 ∧ pairOdd.2 ≠ emptyGlyph) ∧
    (0 ≤ codepointOf pairB.1 ∧ codepointOf pairB.1 < 65536 ∧ pairB.2 ≠ emptyGlyph) ∧
    ∃ fp fq fN,
      ParseDefinition (tokensOf (skippedPairs ++ [pairOdd])) = .ok fp ∧
      ParseDefinition (tokensOf ((skippedPairs ++ [pairOdd]) ++ (skippedPairs ++ [pairB]))) =
        .ok fq ∧
      ParseDefinition
        (tokensOf ((skippedPairs ++ [pairOdd]) ++ (skippedPairs ++ [pairB]) ++ [pairA2])) =
        .ok fN ∧
      fp.glyphmap (codepointOf pairOdd.1).toNat = 1 + runBytes skippedPairs ∧
      fq.glyphmap (codepointOf pairB.1).toNat =
        1 + runBytes ((skippedPairs ++ [pairOdd]) ++ skippedPairs) ∧
      fp.glyphmap (codepointOf pairOdd.1).toNat + pairOdd.2.length / 2 <
        fq.glyphmap (codepointOf pairB.1).toNat ∧
      fp.glyphdata.length =
        fp.glyphmap (codepointOf pairOdd.1).toNat + pairOdd.2.length / 2 + 1 ∧
      fq.glyphdata.length = fq.glyphmap (codepointOf pairB.1).toNat + pairB.2.length / 2 + 1 ∧
      (∀ j, j < fp.glyphdata.length → fq.glyphdata[j]? = fp.glyphdata[j]?) ∧
      (∀ j, j < fp.glyphdata.length → fN.glyphdata[j]? = fp.glyphdata[j]?) ∧
      (∀ j, j < fq.glyphdata.length → fN.glyphdata[j]? = fq.glyphdata[j]?) :=
  ⟨by decide, by decide,
    C11_offsets_increase skippedPairs skippedPairs [pairA2] pairOdd pairB
      (by decide) (by decide)⟩

/-- C12: when two pairs with the same in-range codepoint and valid, non-skipped
bitstrings `s1`, then `s2`, are stored (any pairs `mid` between them, and after them
any pairs `post` that do not store that codepoint), then after parsing `glyphmap[c]` is
the offset of the later run, whose bytes decode `s2`; the bytes of the earlier run
are still in the arena, unchanged; and storing the second pair changes the map entry
of no other codepoint. -/
theorem C12_later_run_wins (font : FHexFont) (cp1 s1 cp2 s2 : List Char)
    (mid post : List (List Char × List Char))
    (hsame : codepointOf cp1 = codepointOf cp2)
    (hlo : 0 ≤ codepointOf cp1) (hhi : codepointOf cp1 < 65536)
    (he1 : s1.length % 2 = 0) (hx1 : allHex s1) (hs1 : s1 ≠ emptyGlyph)
    (he2 : s2.length % 2 = 0) (hx2 : allHex s2) (hs2 : s2 ≠ emptyGlyph)
    (hlast : codepointOf cp1 ∉ storedCodepoints post) :
    ∃ fA fB fC fN,
      processPair font cp1 s1 = .ok fA ∧ parseLoop (tokensOf mid) fA = .ok fB ∧
      processPair fB cp2 s2 = .ok fC ∧ parseLoop (tokensOf post) fC = .ok fN ∧
      parseLoop (tokensOf ([(cp1, s1)] ++ (mid ++ [(cp2, s2)]) ++ post)) font = .ok fN ∧
      fA.glyphmap (codepointOf cp1).toNat = font.glyphdata.length ∧
      fN.glyphmap (codepointOf cp1).toNat = fB.glyphdata.length ∧
      font.glyphdata.length + s1.length / 2 < fB.glyphdata.length ∧
      (∀ i, i < s2.length / 2 →
        fN.glyphdata[fN.glyphmap (codepointOf cp1).toNat + 1 + i]? =
          some (16 * hexval (s2.getD (2 * i) '0') + hexval (s2.getD (2 * i + 1) '0'))) ∧
      (∀ i, i < s1.length / 2 →
        fN.glyphdata[font.glyphdata.length + 1 + i]? =
          some (16 * hexval (s1.getD (2 * i) '0') + hexval (s1.getD (2 * i + 1) '0'))) ∧
      (∀ j, j < fA.glyphdata.length → fN.glyphdata[j]? = fA.glyphdata[j]?) ∧
      (∀ c : Nat, c ≠ (codepointOf cp1).toNat → fC.glyphmap c = fB.glyphmap c) := by
  obtain ⟨f0, fA, h0, hA, hA', hoffA, hlenA, -, -, -, hrowsA⟩ :=
    parseLoop_upto [] (cp1, s1) font hlo hhi hs1
  cases h0
  obtain ⟨fB, fC, hB, hC, hBC, hoffC, hlenC, hframeC, hmapC, -, hrowsC⟩ :=
    parseLoop_upto mid (cp2, s2) fA (hsame ▸ hlo) (hsame ▸ hhi) hs2
  obtain ⟨fB', hB', hlenB, hframeB, -⟩ := parseLoop_frame mid fA
  rw [hB] at hB'
  cases hB'
  obtain ⟨fN, hN, -, hframeN, hmapN⟩ := parseLoop_frame post fC
  simp only [runBytes, Nat.add_zero] at hoffA hlenA
  simp only [] at hoffA hlenA hoffC hlenC hrowsA hrowsC hA hC hmapC
  have hmN : fN.glyphmap (codepointOf cp1).toNat = fB.glyphdata.length := by
    rw [hmapN _ (by rw [Int.toNat_of_nonneg hlo]; exact hlast), hsame, hoffC, hlenB]
  refine ⟨fA, fB, fC, fN, hA, hB, hC, hN, ?_, hoffA, hmN, by omega, ?_, ?_, ?_, ?_⟩
  · rw [List.nil_append] at hA'
    rw [parseLoop_append, parseLoop_append, hA']
    simp only []
    rw [hBC]
    exact hN
  · intro i hi
    rw [hmN, hframeN _ (by omega)]
    have := hrowsC i hi
    rw [hoffC, ← hlenB] at this
    rw [this, decode_hex_pair s2 hx2 i (by omega)]
  · intro i hi
    rw [hframeN _ (by omega), hframeC _ (by omega), hframeB _ (by omega)]
    have := hrowsA i hi
    rw [hoffA] at this
    rw [this, decode_hex_pair s1 hx1 i (by omega)]
  · intro j hj
    rw [hframeN _ (by omega), hframeC _ (by omega), hframeB _ hj]
  · intro c hc
    exact hmapC c (by rw [← hsame]; exact hc)

theorem C12_later_run_wins_witness :
    codepointOf pairA.1 = codepointOf pairA2.1 ∧
    0 ≤ codepointOf pairA.1 ∧ codepointOf pairA.1 < 65536 ∧
    pairA.2.length % 2 = 0 ∧ allHex pairA.2 ∧ pairA.2 ≠ emptyGlyph ∧
    pairA2.2.length % 2 = 0 ∧ allHex pairA2.2 ∧ pairA2.2 ≠ emptyGlyph ∧
    codepointOf pairA.1 ∉ storedCodepoints skippedPairs ∧
    ∃ fA fB fC fN,
      processPair initialFont pairA.1 pairA.2 = .ok fA ∧
      parseLoop (tokensOf [pairC, pairB]) fA = .ok fB ∧
      processPair fB pairA2.1 pairA2.2 = .ok fC ∧
      parseLoop (tokensOf skippedPairs) fC = .ok fN ∧
      parseLoop (tokensOf ([(pairA.1, pairA.2)] ++ ([pairC, pairB] ++ [(pairA2.1, pairA2.2)])
        ++ skippedPairs)) initialFont = .ok fN ∧
      fA.glyphmap (codepointOf pairA.1).toNat = initialFont.glyphdata.length ∧
      fN.glyphmap (codepointOf pairA.1).toNat = fB.glyphdata.length ∧
      initialFont.glyphdata.length + pairA.2.length / 2 < fB.glyphdata.length ∧
      (∀ i, i < pairA2.2.length / 2 →
        fN.glyphdata[fN.glyphmap (codepointOf pairA.1).toNat + 1 + i]? =
          some (16 * hexval (pairA2.2.getD (2 * i) '0')
            + hexval (pairA2.2.getD (2 * i + 1) '0'))) ∧
      (∀ i, i < pairA.2.length / 2 →
        fN.glyphdata[initialFont.glyphdata.length + 1 + i]? =
          some (16 * hexval (pairA.2.getD (2 * i) '0')
            + hexval (pairA.2.getD (2 * i + 1) '0'))) ∧
      (∀ j, j < fA.glyphdata.length → fN.glyphdata[j]? = fA.glyphdata[j]?) ∧
      (∀ c : Nat, c ≠ (codepointOf pairA.1).toNat → fC.glyphmap c = fB.glyphmap c) :=
  ⟨by decide, by decide, by decide, by decide, by decide, by decide, by decide, by decide,
    by decide, by decide,
    C12_later_run_wins initialFont pairA.1 pairA.2 pairA2.1 pairA2.2 [pairC, pairB]
      skippedPairs
      (by decide) (by decide) (by decide) (by decide) (by decide) (by decide) (by decide)
      (by decide) (by decide) (by decide)⟩

/-- C13: with the scanner as a list of tokens, `ParseDefinition` fails with the
fatal script error if and only if the tokens, taken three at a time, contain a
triple whose second token is not `:` or end after the first or second token of a
triple, also when the pairs would be skipped (the stream `10000 ; FF` with an
out-of-range codepoint, the stream `0020 : 0000..00 0041` with the skip literal);
otherwise it ends normally at the end of the stream, as on `41 : F`. -/
theorem C13_script_error_iff :
    (∀ tokens : List (List Char),
      (ParseDefinition tokens = .error .scriptError ↔ malformed tokens = true) ∧
      (malformed tokens = false ↔ ∃ font, ParseDefinition tokens = .ok font)) ∧
    ParseDefinition [['1', '0', '0', '0', '0'], [';'], ['F', 'F']] = .error .scriptError ∧
    ParseDefinition [['0', '0', '2', '0'], [':'], List.replicate 32 '0', ['0', '0', '4', '1']] =
      .error .scriptError ∧
    (∃ font, ParseDefinition [['4', '1'], [':'], ['F']] = .ok font ∧
      font.glyphdata = [0, 0] ∧ font.glyphmap 65 = 1) := by
  refine ⟨?_, rfl, rfl, _, rfl, rfl, rfl⟩
  intro tokens
  rcases parseLoop_outcome tokens initialFont with ⟨hm, hr⟩ | ⟨hm, font, hr⟩
  · refine ⟨⟨fun _ => hm, fun _ => hr⟩, ⟨fun h0 => ?_, ?_⟩⟩
    · rw [hm] at h0; cases h0
    · rintro ⟨font, hf⟩
      rw [ParseDefinition, hr] at hf
      cases hf
  · refine ⟨⟨fun he => ?_, fun h1 => ?_⟩, ⟨fun _ => ⟨font, hr⟩, fun _ => hm⟩⟩
    · rw [ParseDefinition, hr] at he
      cases he
    · rw [hm] at h1; cases h1

/-- C14: font assembly on a parsed font ends normally; for every codepoint `i` of
`[FirstChar, LastChar]` entry `i - FirstChar` of the table is, when `glyphmap[i]` is
non-zero, the glyph over the bytes from `glyphmap[i] + 1` on with
`SourceWidth = arena[glyphmap[i]] / 16`, `Width = 9 * SourceWidth`, `Height = 16` and
advance `9 * SourceWidth`, and otherwise advance 9 with no image; the table has
`LastChar - FirstChar + 1` entries (as a 32-bit value, and as an integer when a
glyph was stored). -/
theorem C14_font_assembly (fresh : CharData) (tokens : List (List Char)) (font : FHexFont)
    (hfresh : fresh.TranslatedPic = none) (hparse : ParseDefinition tokens = .ok font) :
    ∃ Chars, LoadTranslations fresh font = some Chars ∧
      Chars.length = charsSize font ∧
      (font.FirstChar ≤ font.LastChar →
        (Chars.length : Int) = font.LastChar - font.FirstChar + 1) ∧
      ∀ i : Int, font.FirstChar ≤ i → i ≤ font.LastChar →
        (font.glyphmap i.toNat ≠ 0 →
          ∃ n, font.glyphdata[font.glyphmap i.toNat]? = some n ∧
            Chars[(i - font.FirstChar).toNat]? = some
              { TranslatedPic := some
                  { SourceData := font.glyphdata.drop (font.glyphmap i.toNat + 1)
                    SourceWidth := n / 16, Width := 9 * (n / 16), Height := 16 }
                XMove := 9 * ((n / 16 : Nat) : Int) }) ∧
        (font.glyphmap i.toNat = 0 →
          Chars[(i - font.FirstChar).toNat]? = some { TranslatedPic := none, XMove := 9 }) := by
  obtain ⟨stored, hinv⟩ := parseLoop_inv tokens initialFont font [] initialFont_inv hparse
  obtain ⟨Chars, hload, hlen, hent⟩ := LoadTranslations_entries fresh font stored hinv
  refine ⟨Chars, hload, hlen, ?_, ?_⟩
  · intro hle
    rw [hlen]
    exact charsSize_of_stored font stored hinv hle
  · intro i h1 h2
    have hk : font.FirstChar + ((i - font.FirstChar).toNat : Int) = i := by omega
    have he := hent (i - font.FirstChar).toNat (by omega)
    rw [hk] at he
    constructor
    · intro hne
      obtain ⟨n, hn, -⟩ := hinv.run_inside _ hne
      refine ⟨n, hn, ?_⟩
      rw [he, charEntry, if_pos (by omega), List.getD_eq_getElem?_getD, hn, Option.getD_some,
        Nat.mul_comm (n / 16) 9, spacing, Int.mul_comm]
    · intro h0
      rw [he, charEntry, if_neg (by omega), hfresh]
      rfl

theorem C14_font_assembly_witness :
    (⟨none, 0⟩ : CharData).TranslatedPic = none ∧
    ParseDefinition exampleTokens = .ok exampleFont ∧
    ∃ Chars, LoadTranslations ⟨none, 0⟩ exampleFont = some Chars ∧
      Chars.length = charsSize exampleFont ∧
      (exampleFont.FirstChar ≤ exampleFont.LastChar →
        (Chars.length : Int) = exampleFont.LastChar - exampleFont.FirstChar + 1) ∧
      ∀ i : Int, exampleFont.FirstChar ≤ i → i ≤ exampleFont.LastChar →
        (exampleFont.glyphmap i.toNat ≠ 0 →
          ∃ n, exampleFont.glyphdata[exampleFont.glyphmap i.toNat]? = some n ∧
            Chars[(i - exampleFont.FirstChar).toNat]? = some
              { TranslatedPic := some
                  { SourceData := exampleFont.glyphdata.drop (exampleFont.glyphmap i.toNat + 1)
                    SourceWidth := n / 16, Width := 9 * (n / 16), Height := 16 }
                XMove := 9 * ((n / 16 : Nat) : Int) }) ∧
        (exampleFont.glyphmap i.toNat = 0 →
          Chars[(i - exampleFont.FirstChar).toNat]? =
            some { TranslatedPic := none, XMove := 9 }) :=
  ⟨rfl, rfl, C14_font_assembly ⟨none, 0⟩ exampleTokens exampleFont rfl rfl⟩

/-- C15 (as stated, refuted): the ramp has 18 entries, but entry 17 is `16/17`, not
1, and entry 0 is `15/34`, not near black; the near-black entry `1/100` is entry
1. -/
theorem C15_ramp_counterexample :
    luminosityRamp.length = 18 ∧ luminosityRamp[17]? = some (16 / 17) ∧
    (16 / 17 : ℚ) ≠ 1 ∧ luminosityRamp[0]? = some (15 / 34) ∧
    luminosityRamp[1]? = some (1 / 100) := by
  have h17 : luminosity 17 = 16 / 17 := by
    rw [luminosity_ramp_value 17 (by decide)]; norm_num
  have h0 : luminosity 0 = 15 / 34 := by
    rw [luminosity_ramp_value 0 (by decide)]; norm_num
  have h1 : luminosity 1 = 1 / 100 := by
    unfold luminosity; rw [if_pos rfl]
  refine ⟨by simp [luminosityRamp], ?_, by norm_num, ?_, ?_⟩
  · simp [luminosityRamp, h17]
  · simp [luminosityRamp, h0]
  · simp [luminosityRamp, h1]

/-- C15 (amended): the ramp is an 18-entry sequence with every value in `[0, 1]`;
entry 1 is the near-black `1/100`, entry 0 is `15/34`, and entries 2..17 form a
linear ramp of step `1/34` that starts at `1/2` (entry 2) and ends at `16/17`
(entry 17). -/
theorem C15_luminosity_ramp :
    luminosityRamp.length = 18 ∧
    (∀ i, i < 18 → luminosityRamp[i]? = some (luminosity i)) ∧
    (∀ i, i < 18 → 0 ≤ luminosity i ∧ luminosity i ≤ 1) ∧
    luminosity 1 = 1 / 100 ∧ luminosity 0 = 15 / 34 ∧
    luminosity 2 = 1 / 2 ∧ luminosity 17 = 16 / 17 ∧
    (∀ i, 2 ≤ i → i < 17 → luminosity (i + 1) - luminosity i = 1 / 34) := by
  refine ⟨by simp [luminosityRamp], ?_, ?_, ?_, ?_, ?_, ?_, ?_⟩
  · intro i hi
    simp [luminosityRamp, List.getElem?_range hi]
  · intro i hi
    by_cases h1 : i = 1
    · subst h1
      unfold luminosity
      rw [if_pos rfl]
      norm_num
    · rw [luminosity_ramp_value i h1]
      have hi' : (i : ℚ) ≤ 17 := by exact_mod_cast (by omega : i ≤ 17)
      have h0 : (0 : ℚ) ≤ i := by exact_mod_cast Nat.zero_le i
      constructor <;> linarith
  · unfold luminosity; rw [if_pos rfl]
  · rw [luminosity_ramp_value 0 (by decide)]; norm_num
  · rw [luminosity_ramp_value 2 (by decide)]; norm_num
  · rw [luminosity_ramp_value 17 (by decide)]; norm_num
  · intro i h2 _
    rw [luminosity_ramp_value (i + 1) (by omega), luminosity_ramp_value i (by omega)]
    push_cast
    ring

/-- C16: after every list of pairs (so after every parsing step) `arena[0]` is the
sentinel 0, `glyphmap[c]` is non-zero exactly for the codepoints some pair was stored
under, and every non-zero `glyphmap[c]` is at least 1 with
`glyphmap[c] + arena[glyphmap[c]] < arena length`. -/
theorem C16_arena_map_invariant (pairs : List (List Char × List Char)) :
    ∃ font, ParseDefinition (tokensOf pairs) = .ok font ∧
      font.glyphdata[0]? = some 0 ∧
      (∀ c : Nat, font.glyphmap c ≠ 0 ↔ (c : Int) ∈ storedCodepoints pairs) ∧
      (∀ c : Nat, font.glyphmap c ≠ 0 →
        1 ≤ font.glyphmap c ∧
        ∃ n, font.glyphdata[font.glyphmap c]? = some n ∧
          font.glyphmap c + n < font.glyphdata.length) := by
  obtain ⟨font, hok, hinv⟩ := parseLoop_stored pairs initialFont [] initialFont_inv
  obtain ⟨font', hok', -, hframe, -⟩ := parseLoop_frame pairs initialFont
  rw [hok] at hok'
  cases hok'
  rw [List.nil_append] at hinv
  refine ⟨font, hok, ?_, hinv.map_iff, ?_⟩
  · rw [hframe 0 (by decide)]
    rfl
  · intro c hc
    exact ⟨by omega, hinv.run_inside c hc⟩

/-- C17 (as stated, refuted): the pair `1G` decodes to 1 where the claim's rule
gives `16 * v('1') + v('G') = 16`, and `G1` decodes to 0 where the rule gives 1;
likewise the codepoint token `4G1` parses to 4, not to `0x401`. -/
theorem C17_non_hex_counterexample :
    hexDigit? 'G' = none ∧
    strtoull16 ['1', 'G'] % 256 = 1 ∧ 16 * hexval '1' + hexval 'G' = 16 ∧
    strtoull16 ['G', '1'] % 256 = 0 ∧ 16 * hexval 'G' + hexval '1' = 1 ∧
    codepointOf ['4', 'G', '1'] = 4 ∧
    (∃ font1, processPair initialFont ['4', '1'] ['1', 'G', 'G', '1'] = .ok font1 ∧
      font1.glyphdata = [0, 2, 1, 0]) :=
  ⟨by decide, by decide, by decide, by decide, by decide, by decide, _, rfl, rfl⟩

/-- C17 (amended): a character that is not a hex digit is recovered without failure,
the parse of the pair stopping at it: a pair of even length is always stored without
error; if `c1` is a hex digit and `c2` is not, the decoded byte is `v(c1)`; if `c1`
is not a hex digit (nor white space nor a sign), the decoded byte is 0, so `1G`
decodes to 1 and `G1` to 0; a codepoint token of hex digits followed by a character
that is not a hex digit (nor `x`, `X`) has the value of the digits before it. -/
theorem C17_parse_stops_at_non_hex :
    (∀ (font : FHexFont) (cp s : List Char), s.length % 2 = 0 →
      ∃ font1, processPair font cp s = .ok font1) ∧
    (∀ (c1 c2 : Char), (hexDigit? c1).isSome = true → hexDigit? c2 = none →
      strtoull16 [c1, c2] % 256 = hexval c1) ∧
    (∀ (c1 c2 : Char), hexDigit? c1 = none → isspace c1 = false → c1 ≠ '-' → c1 ≠ '+' →
      strtoull16 [c1, c2] % 256 = 0) ∧
    strtoull16 ['1', 'G'] % 256 = 1 ∧ strtoull16 ['G', '1'] % 256 = 0 ∧
    (∀ (ds : List Char) (g : Char) (rest : List Char), ds ≠ [] → allHex ds →
      hexDigit? g = none → g ≠ 'x' → g ≠ 'X' →
      codepointOf (ds ++ g :: rest) = codepointOf ds) ∧
    codepointOf ['4', 'G', '1'] = codepointOf ['4'] := by
  refine ⟨processPair_even_ok, ?_, ?_, by decide, by decide, ?_, by decide⟩
  · intro c1 c2 h1 h2
    obtain ⟨d1, hd⟩ := Option.isSome_iff_exists.mp h1
    have l1 := hexDigit?_lt hd
    rw [strtoull16_hex_then_other hd h2, hexval, hd, Option.getD_some,
      Nat.mod_eq_of_lt (by omega)]
  · intro c1 c2 h1 hsp hm hp
    rw [strtoull16_other_first h1 hsp hm hp]
  · intro ds g rest hne hds hg hx hX
    rw [codepointOf, codepointOf, strtoull16_stops ds g rest hne hds hg ⟨hx, hX⟩]

/-- C18: for `SourceWidth >= 1`, `Height = 16`, `Width = 9 * SourceWidth`: each pass
of the `bit` loop over a buffer of `Width * Height` bytes writes only the lit index
`(8x + bit) * 16 + y` and, when `y` is not the last row, the shadow index
`(8x + bit + 1) * 16 + y + 1`; both are below `Width * Height` and at most
`8 * SourceWidth * 16 + 16 - 1`; the whole function ends normally on every source of
`16 * SourceWidth` bytes and leaves every index above that bound at 0; the bound is
written for the all-ones source. For `SourceWidth = 0` the buffer is empty and nothing
is written. -/
theorem C18_write_safety (SW : Nat) (hSW : 1 ≤ SW) :
    (∀ (y x bit byte : Nat) (dest : List Nat), y < 16 → x < SW → bit < 8 →
      dest.length = 9 * SW * 16 →
      bitBody 16 y x byte bit dest = some
        (if byte.testBit (7 - bit) = true then
          (if y ≠ 15 then
            (dest.set ((8 * x + bit) * 16 + y) (y + 2)).set
              ((8 * x + bit + 1) * 16 + y + 1) 1
           else dest.set ((8 * x + bit) * 16 + y) (y + 2))
         else dest) ∧
      (8 * x + bit) * 16 + y < 9 * SW * 16 ∧
      (8 * x + bit) * 16 + y ≤ 8 * SW * 16 + 16 - 1 ∧
      (y ≠ 15 → (8 * x + bit + 1) * 16 + y + 1 < 9 * SW * 16 ∧
        (8 * x + bit + 1) * 16 + y + 1 ≤ 8 * SW * 16 + 16 - 1)) ∧
    (∀ src : List Nat, src.length = 16 * SW →
      ∃ px, CreatePalettedPixels ⟨src, SW, 9 * SW, 16⟩ = some px ∧
        px.length = 9 * SW * 16 ∧
        ∀ j, 8 * SW * 16 + 16 - 1 < j → j < px.length → px[j]? = some 0) ∧
    (∃ px, CreatePalettedPixels ⟨solidRows SW, SW, 9 * SW, 16⟩ = some px ∧
      8 * SW * 16 + 16 - 1 < px.length ∧ px[8 * SW * 16 + 16 - 1]? = some 1) ∧
    (∀ src : List Nat, rasterize ⟨src, 0, 9 * 0, 16⟩ = some { dest := [], src_p := 0 } ∧
      CreatePalettedPixels ⟨src, 0, 9 * 0, 16⟩ = some []) := by
  refine ⟨?_, ?_, ?_, ?_⟩
  · intro y x bit byte dest hy hx hbit hlen
    exact ⟨bitBody_writes SW y x bit byte dest hy hx hbit hlen, by omega, by omega,
      fun _ => ⟨by omega, by omega⟩⟩
  · intro src hsrc
    obtain ⟨px, hpx, hlen, hpix⟩ := CreatePalettedPixels_closed_form SW src (by omega)
    refine ⟨px, hpx, hlen, ?_⟩
    intro j hj1 hj2
    have h := hpix (j / 16) (j % 16) (by omega) (by omega)
    rw [show j / 16 * 16 + j % 16 = j by omega] at h
    rw [h, refPixel]
    have hc : ¬ j / 16 < 8 * SW := by omega
    have hc1 : ¬ j / 16 - 1 < 8 * SW := by omega
    rw [if_neg (fun hl => hc (lit_lt hl)), if_neg (fun hl => hc1 (lit_lt hl.2.2))]
  · obtain ⟨px, hpx, hlen, hpix⟩ := CreatePalettedPixels_closed_form SW (solidRows SW)
      (by simp [solidRows])
    refine ⟨px, hpx, by omega, ?_⟩
    have h := hpix (8 * SW) 15 (by omega) (by omega)
    rw [show 8 * SW * 16 + 15 = 8 * SW * 16 + 16 - 1 by omega] at h
    rw [h, refPixel]
    have hc : ¬ 8 * SW < 8 * SW := by omega
    rw [if_neg (fun hl => hc (lit_lt hl)),
      if_pos ⟨by omega, by omega, lit_solid SW 14 (8 * SW - 1) (by omega) (by omega)⟩]
  · intro src
    exact ⟨rfl, rfl⟩

theorem C18_write_safety_witness :
    1 ≤ 1 ∧
    ((∀ (y x bit byte : Nat) (dest : List Nat), y < 16 → x < 1 → bit < 8 →
      dest.length = 9 * 1 * 16 →
      bitBody 16 y x byte bit dest = some
        (if byte.testBit (7 - bit) = true then
          (if y ≠ 15 then
            (dest.set ((8 * x + bit) * 16 + y) (y + 2)).set
              ((8 * x + bit + 1) * 16 + y + 1) 1
           else dest.set ((8 * x + bit) * 16 + y) (y + 2))
         else dest) ∧
      (8 * x + bit) * 16 + y < 9 * 1 * 16 ∧
      (8 * x + bit) * 16 + y ≤ 8 * 1 * 16 + 16 - 1 ∧
      (y ≠ 15 → (8 * x + bit + 1) * 16 + y + 1 < 9 * 1 * 16 ∧
        (8 * x + bit + 1) * 16 + y + 1 ≤ 8 * 1 * 16 + 16 - 1)) ∧
    (∀ src : List Nat, src.length = 16 * 1 →
      ∃ px, CreatePalettedPixels ⟨src, 1, 9 * 1, 16⟩ = some px ∧
        px.length = 9 * 1 * 16 ∧
        ∀ j, 8 * 1 * 16 + 16 - 1 < j → j < px.length → px[j]? = some 0) ∧
    (∃ px, CreatePalettedPixels ⟨solidRows 1, 1, 9 * 1, 16⟩ = some px ∧
      8 * 1 * 16 + 16 - 1 < px.length ∧ px[8 * 1 * 16 + 16 - 1]? = some 1) ∧
    (∀ src : List Nat, rasterize ⟨src, 0, 9 * 0, 16⟩ = some { dest := [], src_p := 0 } ∧
      CreatePalettedPixels ⟨src, 0, 9 * 0, 16⟩ = some [])) :=
  ⟨by decide, C18_write_safety 1 (by decide)⟩

/-- C19: for a parsed font and every codepoint `i` of `[FirstChar, LastChar]` with a
non-zero `glyphmap[i] = offset`, font assembly creates the glyph over the arena bytes
from `offset + 1` on with `SourceWidth = arena[offset] / 16`; rendering it ends
normally having read exactly `16 * (arena[offset] / 16)` bytes, the source bytes
`0 .. 16 * (arena[offset] / 16) - 1`, which is at most `arena[offset]`; those bytes lie
inside the run `offset + 1 .. offset + arena[offset]` and inside the arena; and the
result is the same when the source is cut after them, so the trailing
`arena[offset] mod 16` bytes of the run are ignored. -/
theorem C19_read_safety (fresh : CharData) (tokens : List (List Char)) (font : FHexFont)
    (i : Int) (hparse : ParseDefinition tokens = .ok font)
    (h1 : font.FirstChar ≤ i) (h2 : i ≤ font.LastChar) (hne : font.glyphmap i.toNat ≠ 0) :
    ∃ Chars n g xm st,
      LoadTranslations fresh font = some Chars ∧
      font.glyphdata[font.glyphmap i.toNat]? = some n ∧
      Chars[(i - font.FirstChar).toNat]? = some { TranslatedPic := some g, XMove := xm } ∧
      g.SourceData = font.glyphdata.drop (font.glyphmap i.toNat + 1) ∧
      g.SourceWidth = n / 16 ∧
      rasterize g = some st ∧ st.src_p = 16 * (n / 16) ∧ 16 * (n / 16) ≤ n ∧
      n = 16 * (n / 16) + n % 16 ∧
      font.glyphmap i.toNat + n < font.glyphdata.length ∧
      (∀ t, t < st.src_p →
        g.SourceData[t]? = font.glyphdata[font.glyphmap i.toNat + 1 + t]? ∧
        font.glyphmap i.toNat + 1 + t ≤ font.glyphmap i.toNat + n ∧
        font.glyphmap i.toNat + 1 + t < font.glyphdata.length) ∧
      CreatePalettedPixels { g with SourceData := g.SourceData.take (16 * (n / 16)) } =
        CreatePalettedPixels g := by
  obtain ⟨stored, hinv⟩ := parseLoop_inv tokens initialFont font [] initialFont_inv hparse
  obtain ⟨Chars, hload, -, hent⟩ := LoadTranslations_entries fresh font stored hinv
  obtain ⟨n, hn, hin⟩ := hinv.run_inside _ hne
  have hk : font.FirstChar + ((i - font.FirstChar).toNat : Int) = i := by omega
  have he := hent (i - font.FirstChar).toNat (by omega)
  rw [hk, charEntry, if_pos (by omega), List.getD_eq_getElem?_getD, hn, Option.getD_some,
    Nat.mul_comm (n / 16) 9] at he
  have hsrc : 16 * (n / 16) ≤ (font.glyphdata.drop (font.glyphmap i.toNat + 1)).length := by
    rw [List.length_drop]; omega
  obtain ⟨st, hst, hp, -, -⟩ :=
    rasterize_closed_form (n / 16) (font.glyphdata.drop (font.glyphmap i.toNat + 1)) hsrc
  refine ⟨Chars, n, _, _, st, hload, hn, he, rfl, rfl, hst, hp, by omega, by omega, hin, ?_, ?_⟩
  · intro t ht
    refine ⟨by rw [List.getElem?_drop], by omega, by omega⟩
  · exact CreatePalettedPixels_take (n / 16) _ hsrc

theorem C19_read_safety_witness :
    ParseDefinition exampleA = .ok exampleAFont ∧
    exampleAFont.FirstChar ≤ 65 ∧ (65 : Int) ≤ exampleAFont.LastChar ∧
    exampleAFont.glyphmap (65 : Int).toNat ≠ 0 ∧
    ∃ Chars n g xm st,
      LoadTranslations ⟨none, 0⟩ exampleAFont = some Chars ∧
      exampleAFont.glyphdata[exampleAFont.glyphmap (65 : Int).toNat]? = some n ∧
      Chars[((65 : Int) - exampleAFont.FirstChar).toNat]? =
        some { TranslatedPic := some g, XMove := xm } ∧
      g.SourceData = exampleAFont.glyphdata.drop (exampleAFont.glyphmap (65 : Int).toNat + 1) ∧
      g.SourceWidth = n / 16 ∧
      rasterize g = some st ∧ st.src_p = 16 * (n / 16) ∧ 16 * (n / 16) ≤ n ∧
      n = 16 * (n / 16) + n % 16 ∧
      exampleAFont.glyphmap (65 : Int).toNat + n < exampleAFont.glyphdata.length ∧
      (∀ t, t < st.src_p →
        g.SourceData[t]? =
          exampleAFont.glyphdata[exampleAFont.glyphmap (65 : Int).toNat + 1 + t]? ∧
        exampleAFont.glyphmap (65 : Int).toNat + 1 + t ≤
          exampleAFont.glyphmap (65 : Int).toNat + n ∧
        exampleAFont.glyphmap (65 : Int).toNat + 1 + t < exampleAFont.glyphdata.length) ∧
      CreatePalettedPixels { g with SourceData := g.SourceData.take (16 * (n / 16)) } =
        CreatePalettedPixels g :=
  ⟨rfl, by decide, by decide, by decide,
    C19_read_safety ⟨none, 0⟩ exampleA exampleAFont 65 rfl (by decide) (by decide) (by decide)⟩

/-- C20: for a font in which no glyph was stored (`FirstChar = INT_MAX`,
`LastChar = INT_MIN`) the assembly loop runs zero times and leaves the table as
`Chars.Resize` made it, with no glyph image created; the table size
`LastChar - FirstChar + 1`, taken modulo `2 ^ 32`, is 2. -/
theorem C20_empty_font (fresh : CharData) (font : FHexFont)
    (hfirst : font.FirstChar = INT_MAX) (hlast : font.LastChar = INT_MIN) :
    (font.LastChar - font.FirstChar + 1).toNat = 0 ∧
    (font.LastChar - font.FirstChar + 1) % 2 ^ 32 = 2 ∧
    charsSize font = 2 ∧
    LoadTranslations fresh font = some [fresh, fresh] := by
  have e1 : (font.LastChar - font.FirstChar + 1).toNat = 0 := by
    rw [hfirst, hlast]; decide
  have e2 : (font.LastChar - font.FirstChar + 1) % 2 ^ 32 = 2 := by
    rw [hfirst, hlast]; decide
  have e3 : charsSize font = 2 := by
    unfold charsSize; rw [e2]; rfl
  refine ⟨e1, e2, e3, ?_⟩
  rw [LoadTranslations, e1, e3]
  rfl

theorem C20_empty_font_witness :
    initialFont.FirstChar = INT_MAX ∧ initialFont.LastChar = INT_MIN ∧
    (initialFont.LastChar - initialFont.FirstChar + 1).toNat = 0 ∧
    (initialFont.LastChar - initialFont.FirstChar + 1) % 2 ^ 32 = 2 ∧
    charsSize initialFont = 2 ∧
    LoadTranslations ⟨none, 0⟩ initialFont = some [⟨none, 0⟩, ⟨none, 0⟩] :=
  ⟨rfl, rfl, C20_empty_font ⟨none, 0⟩ initialFont rfl rfl⟩

end HexFont
